import Mathlib

/-!
# Verification of the C# schema code generator (`generator/csharp.babelg.py`)

This file gives a shallow embedding of the parts of the generator that the
frozen claims are about, and settles each claim against it.

Two layers are modelled:

* the **identifier engine** (`_segment_name`, `_public_name`, `_typename`,
  `_local_names`): faithful translations of the Python string functions,
  working over lists of character codes (Python 2 strings are sequences of
  character codes; all schema identifiers are ASCII);
* the **generated-code semantics**: the generator emits C# `Encode`/`Decode`
  methods and constructors whose shape is a function of the schema type
  (struct fields, union variants, enumerated subtypes).  We embed that shape
  as Lean functions from a schema description to the runtime behaviour of the
  emitted code, following the emission functions line by line
  (`_emit_encoder`, `_emit_decoder`, `_get_decoder_method`,
  `_generate_struct_encodable_methods`, `_generate_union_encodable_methods`,
  `_check_constraints`, `_generate_struct_init_ctor`,
  `_generate_struct_default_ctor`).

The encoder/decoder runtime (`Dropbox.Api.Babel`, `IEncoder`/`IDecoder`) is
not part of the sources; where its behaviour is needed it is modelled from
the specification (a composite value is a map of named entries; reading an
absent, non-defaulted, non-nullable field fails).  Such definitions are
marked `Modelled from the spec:` in their doc comments.
-/

/-! ## Identifier engine

Schema names are modelled as lists of character codes (`List Nat`), exactly
the view Python 2's `str`/`re` take.  `_CAMEL_CASE_RE` is
`((?<=[a-z0-9])[A-Z]|(?!^)[A-Z](?=[a-z]))` and the substitution inserts `_`
before every match; `.lower()` on ASCII maps `A`-`Z` (codes 65-90) to
`a`-`z` (codes 97-122) and leaves everything else unchanged.
-/

/-- The character code of `_`. -/
def usc : Nat := 95

/-- The character code of `/`. -/
def slashC : Nat := 47

/-- The character code of `.`. -/
def dotC : Nat := 46

/-- `[A-Z]` test on a character code. -/
def isUpAZ (c : Nat) : Bool := decide (65 ≤ c ∧ c ≤ 90)

/-- `[a-z]` test on a character code. -/
def isLowAZ (c : Nat) : Bool := decide (97 ≤ c ∧ c ≤ 122)

/-- `[0-9]` test on a character code. -/
def isDig09 (c : Nat) : Bool := decide (48 ≤ c ∧ c ≤ 57)

/-- Python `str.lower()` on one ASCII character code. -/
def pyLower (c : Nat) : Nat := if isUpAZ c then c + 32 else c

/-- Python `str.upper()` on one ASCII character code. -/
def pyUpper (c : Nat) : Nat := if isLowAZ c then c - 32 else c

/-- `name.replace('/', '_')` (first line of `_segment_name`). -/
def replSlash (s : List Nat) : List Nat :=
  s.map (fun c => if c = slashC then usc else c)

/-- Whether `_CAMEL_CASE_RE` matches at a character `c` whose predecessor is
`prev` (`none` at the start of the string) and whose successor is `next`:
either `c` is `[A-Z]` preceded by `[a-z0-9]`, or `c` is `[A-Z]`, not at the
start, and followed by `[a-z]`. -/
def camelBreak (prev : Option Nat) (c : Nat) (next : Option Nat) : Bool :=
  isUpAZ c &&
    ((match prev with
      | some p => isLowAZ p || isDig09 p
      | none => false) ||
     (prev.isSome &&
      (match next with
       | some n => isLowAZ n
       | none => false)))

/-- `_CAMEL_CASE_RE.sub(r'_\1', name)`: insert `_` before every match. -/
def camelSub : Option Nat → List Nat → List Nat
  | _, [] => []
  | prev, c :: rest =>
    (if camelBreak prev c rest.head? then [usc, c] else [c]) ++ camelSub (some c) rest

/-- `.lower()` applied to the whole string. -/
def lowerAll (s : List Nat) : List Nat := s.map pyLower

/-- Python `str.split('_')` (keeps empty pieces, always non-empty result). -/
def splitU : List Nat → List (List Nat)
  | [] => [[]]
  | c :: rest =>
    if c = usc then [] :: splitU rest
    else
      match splitU rest with
      | s :: ss => (c :: s) :: ss
      | [] => [[c]]

/-- Python `'_'.join(...)`. -/
def joinU : List (List Nat) → List Nat
  | [] => []
  | [s] => s
  | s :: ss => s ++ usc :: joinU ss

/-- `_segment_name`: replace `/` by `_`, insert `_` at camel-case boundaries,
lowercase, split on `_`. -/
def segmentName (s : List Nat) : List (List Nat) :=
  splitU (lowerAll (camelSub none (replSlash s)))

/-- Python `str.capitalize()`: first character uppercased, rest lowercased. -/
def pyCapitalize : List Nat → List Nat
  | [] => []
  | c :: rest => pyUpper c :: rest.map pyLower

/-- `_public_name`: capitalize each segment and concatenate. -/
def publicName (s : List Nat) : List Nat :=
  (segmentName s).flatMap pyCapitalize

/-- A schema identifier: ASCII letters, digits, `_` and `/`. -/
def validIdent (s : List Nat) : Bool :=
  s.all (fun c => isUpAZ c || isLowAZ c || isDig09 c || c = usc || c = slashC)

/-- Character codes of a Lean string literal (for concrete witnesses). -/
def codes (s : String) : List Nat := s.toList.map Char.toNat

/-! ## Schema model for the struct/union serialization synthesizer

A schema type (`Ty`) carries exactly the information the generator reads off
`babelapi.data_type`: numeric bounds, string length bounds and pattern, list
item bounds, one optional nullable wrapper, struct fields (name, type,
optional declared default) and union variants (name, type, with the union's
`catch_all_field` recorded by name).  Instances (`Value`) list field values
positionally in declaration order; a union instance is its variant tag plus
payload.  The wire format (`Wire`) is the one produced by the emitted
`IEncoder` calls: a composite value is an object of named entries.
-/

inductive Dflt where
  | dbool (b : Bool)
  | dint (n : Int)
  | dstr (s : String)
  | dtag (t : String)
deriving DecidableEq

inductive Ty where
  | boolT
  | intT (lo hi : Option Int)
  | strT (minL maxL : Option Nat) (pat : Option String)
  | listT (elem : Ty) (minI maxI : Option Nat)
  | nullT (inner : Ty)
  | structT (fields : List (String × Ty × Option Dflt))
  | unionT (variants : List (String × Ty)) (catchAll : Option String)
  | voidT

abbrev FieldT := String × Ty × Option Dflt

inductive Value where
  | vnull
  | vbool (b : Bool)
  | vint (n : Int)
  | vstr (s : String)
  | vlist (elems : List Value)
  | vstruct (fieldVals : List Value)
  | vunion (tag : String) (payload : Option Value)

inductive Wire where
  | wbool (b : Bool)
  | wint (n : Int)
  | wstr (s : String)
  | wlist (items : List Wire)
  | wobj (entries : List (String × Wire))

/-- Errors of the generated code at runtime: `sys.InvalidOperationException`
raised by the emitted dispatch, a CLR invalid-cast failure, and failures
inside the encoder/decoder runtime (missing field, wrong shape).  The
runtime behaviour is modelled from the spec: a composite value is a map of
named entries; reading an absent scalar or composite entry fails, while a
list accessor yields the empty sequence on an absent entry. -/
inductive EErr where
  | invalidOp
  | invalidCast
  | runtime
deriving DecidableEq

def isNullableT : Ty → Bool
  | .nullT _ => true
  | _ => false

def stripNull : Ty → Ty
  | .nullT t => t
  | t => t

def isListT : Ty → Bool
  | .listT _ _ _ => true
  | _ => false

def isCompositeT : Ty → Bool
  | .structT _ => true
  | .unionT _ _ => true
  | _ => false

def isStructT : Ty → Bool
  | .structT _ => true
  | _ => false

def isStrT : Ty → Bool
  | .strT _ _ _ => true
  | _ => false

def isVoidT : Ty → Bool
  | .voidT => true
  | _ => false

/-- `_could_be_null` (line 563): composite, string or list. -/
def couldBeNull (t : Ty) : Bool := isCompositeT t || isStrT t || isListT t

/-- Entry lookup in a wire object.  Modelled from the spec: a composite value
is a map of named entries; `GetField*`/`HasField` address entries by name. -/
def lookupW (n : String) : List (String × Wire) → Option Wire
  | [] => none
  | (k, w) :: rest => if k == n then some w else lookupW n rest

/-- The runtime value of a declared default: literals for scalar/string
defaults, the variant singleton (`Union.Tag.Instance`) for union defaults
(`_process_union_default`). -/
def dfltValue : Dflt → Value
  | .dbool b => .vbool b
  | .dint n => .vint n
  | .dstr s => .vstr s
  | .dtag t => .vunion t none

/-- CLR zero-initialization of a field of the given declared type: `false`/`0`
for value types, `null` for reference types (strings, lists, composites) and
for nullable value types. -/
def clrDefault : Ty → Value
  | .boolT => .vbool false
  | .intT _ _ => .vint 0
  | _ => .vnull

/-- The value a field holds after the generated zero-argument constructor
(`_generate_struct_default_ctor`, lines 1209-1219): fields with a declared
default are assigned it, every other field keeps its CLR zero value. -/
def initVal (f : FieldT) : Value :=
  match f.2.2 with
  | some d => dfltValue d
  | none => clrDefault f.2.1

def nodupB : List String → Bool
  | [] => true
  | n :: rest => !(rest.contains n) && nodupB rest

/-- Whether a declared default fits the field type: defaults exist only for
scalar, boolean, string and union-typed fields (`_process_composite_default`
raises `NotImplementedError` for struct-typed defaults). -/
def dfltOkFor : Dflt → Ty → Bool
  | .dbool _, .boolT => true
  | .dint _, .intT _ _ => true
  | .dstr _, .strT _ _ _ => true
  | .dtag _, .unionT _ _ => true
  | _, _ => false

def caLastOk (ca : Option String) (vars : List (String × Ty)) : Bool :=
  match ca with
  | none => true
  | some c =>
    match vars.getLast? with
    | some (n, _) => n == c
    | none => false

/-- A `Prop`-valued size fact packaged as a definition so that the
well-founded recursions below can use it. -/
def optSizePos {α : Type} [SizeOf α] : (o : Option α) → 0 < sizeOf o
  | none => by simp
  | some _ => by simp

/-! ### Well-formedness of schemas and validity of instances

`wfTy` collects the schema-shape conditions under which the emitted C#
compiles and is a serializer: distinct field/variant wire names, no name
colliding with the reserved `.tag` entry, defaults only on scalar, boolean,
string or union-typed non-nullable fields (a struct-typed default raises
`NotImplementedError` in `_process_composite_default`; a default on a
nullable field would make `Decode`'s absent branch disagree with the
constructor), list elements that are scalars, strings or composites, and a
union catch-all field that is the last declared variant (the emitted
`if`/`else if` chain turns the catch-all into a bare `else`, so a variant
declared after it would produce C# that does not compile — see C3).

`validTy t v` says `v` is an instance of `t` as produced by the generated
initializing constructors with valid arguments: non-nullable reference
fields are non-null, list-typed fields (nullable or not) hold an actual
sequence (the constructor stores a defensive copy, substituting an empty
sequence for null), declared numeric/length bounds hold, and every union
instance is one of its variant wrapper classes. -/

mutual

def wfTy : Ty → Bool
  | .boolT => true
  | .intT _ _ => true
  | .strT _ _ _ => true
  | .voidT => true
  | .listT t _ _ =>
    (match t with
     | .nullT _ => false
     | .voidT => false
     | .listT _ _ _ => false
     | _ => true) && wfTy t
  | .nullT t =>
    (match t with
     | .nullT _ => false
     | .voidT => false
     | _ => true) && wfTy t
  | .structT fs =>
    nodupB (fs.map (fun f => f.1)) &&
    !((fs.map (fun f => f.1)).contains ".tag") &&
    wfFields fs
  | .unionT vars ca =>
    nodupB (vars.map (fun v => v.1)) &&
    !((vars.map (fun v => v.1)).contains ".tag") &&
    caLastOk ca vars &&
    wfVariants vars

def wfFields : List FieldT → Bool
  | [] => true
  | (_, t, d) :: rest =>
    wfTy t &&
    (match t with
     | .voidT => false
     | _ => true) &&
    (match d with
     | none => true
     | some dv => dfltOkFor dv t) &&
    wfFields rest

def wfVariants : List (String × Ty) → Bool
  | [] => true
  | (_, t) :: rest =>
    (match t with
     | .voidT => true
     | .nullT _ => false
     | _ => wfTy t) && wfVariants rest

end

mutual

def validTy : Ty → Value → Bool
  | .boolT, .vbool _ => true
  | .intT lo hi, .vint n =>
    (match lo with | some b => decide (b ≤ n) | none => true) &&
    (match hi with | some b => decide (n ≤ b) | none => true)
  | .strT mn mx _, .vstr s =>
    (match mn with | some b => decide (b ≤ s.length) | none => true) &&
    (match mx with | some b => decide (s.length ≤ b) | none => true)
  | .listT t mn mx, .vlist vs =>
    (match mn with | some b => decide (b ≤ vs.length) | none => true) &&
    (match mx with | some b => decide (vs.length ≤ b) | none => true) &&
    validList t vs
  | .nullT t, v =>
    if isListT t then validTy t v
    else
      match v with
      | .vnull => true
      | _ => validTy t v
  | .structT fs, .vstruct vs => validFields fs vs
  | .unionT vars _, .vunion n p => validUnionTag vars n p
  | _, _ => false

def validList : Ty → List Value → Bool
  | _, [] => true
  | t, v :: vs => validTy t v && validList t vs

def validFields : List FieldT → List Value → Bool
  | [], [] => true
  | [], _ :: _ => false
  | _ :: _, [] => false
  | (_, t, _) :: fs, v :: vs => validTy t v && validFields fs vs

def validUnionTag : List (String × Ty) → String → Option Value → Bool
  | [], _, _ => false
  | (m, t) :: rest, n, p =>
    if m == n then validPayload t p else validUnionTag rest n p

def validPayload : Ty → Option Value → Bool
  | .voidT, p => p.isNone
  | _, none => false
  | t, some v => validTy t v

end

/-! ### Runtime of the generated `Encode` methods

`encodeValue t v` is the wire value the emitted encoder produces for a value
`v` of (already unwrapped) type `t`: `AddField` for scalars and strings,
`AddFieldObject` for composites (the runtime invokes the nested value's own
generated `Encode`), `AddFieldList`/`AddFieldObjectList` for lists.

`encodeFieldEntry` is `_emit_encoder` (lines 973-1016) for one struct field:
a nullable list field is guarded by `if (this.F.Count > 0)`, every other
nullable field by `if (this.F != null)`; a non-nullable field is emitted
unconditionally.

`encodeUnionGo` is the `if (this.IsA) ... else if ... else ...` chain of
`_generate_union_encodable_methods` (lines 1460-1478): the first variant
gets `if`, the catch-all field (when not first) gets a bare `else`, every
other variant gets `else if`; a taken branch casts `this` to the branch
variant's wrapper class and invokes that class's `Encode`
(`_generate_union_field_void_type` / `_generate_union_field_value_type`,
which write the `.tag` entry and, for value-carrying variants, a value entry
named after the variant); falling through the whole chain reaches the
trailing `else { throw new sys.InvalidOperationException(); }` emitted when
no catch-all branch was produced. -/

mutual

def encodeValue : Ty → Value → Except EErr Wire
  | .boolT, .vbool b => .ok (.wbool b)
  | .intT _ _, .vint n => .ok (.wint n)
  | .strT _ _ _, .vstr s => .ok (.wstr s)
  | .listT t _ _, .vlist vs =>
    match encodeList t vs with
    | .ok ws => .ok (.wlist ws)
    | .error e => .error e
  | .structT fs, .vstruct vs =>
    match encodeFields fs vs with
    | .ok es => .ok (.wobj es)
    | .error e => .error e
  | .unionT vars ca, v => encodeUnionGo ca true vars v
  | _, _ => .error .runtime
termination_by t _v => (sizeOf t, 0)

def encodeList : Ty → List Value → Except EErr (List Wire)
  | _, [] => .ok []
  | t, v :: vs =>
    match encodeValue t v with
    | .error e => .error e
    | .ok w =>
      match encodeList t vs with
      | .error e => .error e
      | .ok ws => .ok (w :: ws)
termination_by t vs => (sizeOf t, 1 + sizeOf vs)

def encodeFields : List FieldT → List Value → Except EErr (List (String × Wire))
  | [], [] => .ok []
  | [], _ :: _ => .error .runtime
  | _ :: _, [] => .error .runtime
  | (n, t, _) :: fs, v :: vs =>
    match encodeFieldEntry n t v with
    | .error e => .error e
    | .ok none => encodeFields fs vs
    | .ok (some ent) =>
      match encodeFields fs vs with
      | .error e => .error e
      | .ok es => .ok (ent :: es)
termination_by fs _vs => (sizeOf fs, 0)

def encodeFieldEntry (n : String) (t : Ty) (v : Value) : Except EErr (Option (String × Wire)) :=
  match t with
  | .nullT dt =>
    if isListT dt then
      -- `if (this.F.Count > 0)`: the empty list is omitted, a null list
      -- dereferences at runtime
      match v with
      | .vlist [] => .ok none
      | .vlist (v0 :: vs) =>
        match encodeValue dt (.vlist (v0 :: vs)) with
        | .ok w => .ok (some (n, w))
        | .error e => .error e
      | _ => .error .runtime
    else
      -- `if (this.F != null)`
      match v with
      | .vnull => .ok none
      | v =>
        match encodeValue dt v with
        | .ok w => .ok (some (n, w))
        | .error e => .error e
  | t =>
    match encodeValue t v with
    | .ok w => .ok (some (n, w))
    | .error e => .error e
termination_by (sizeOf t, 3)

def encodeUnionGo (ca : Option String) (first : Bool) :
    List (String × Ty) → Value → Except EErr Wire
  | [], _ => .error .invalidOp
  | (n, t) :: rest, v =>
    if !first && ca == some n then castEncode n t v
    else if (match v with | .vunion m _ => m == n | _ => false) then castEncode n t v
    else encodeUnionGo ca false rest v
termination_by lst _v => (sizeOf lst, 0)

def castEncode (n : String) (t : Ty) (v : Value) : Except EErr Wire :=
  match v with
  | .vunion m p => if m == n then encodeVariant n t p else .error .invalidCast
  | _ => .error .invalidCast
termination_by (sizeOf t, 2)

def encodeVariant (n : String) (t : Ty) (p : Option Value) : Except EErr Wire :=
  match t, p with
  | .voidT, _ => .ok (.wobj [(".tag", .wstr n)])
  | _, none => .error .runtime
  | t, some v =>
    match encodeValue t v with
    | .ok w => .ok (.wobj [(".tag", .wstr n), (n, w)])
    | .error e => .error e
termination_by (sizeOf t, 1)

end

/-! ### Runtime of the generated `Decode` methods

`decodeField` is `_emit_decoder` (lines 1047-1075) for one struct field: the
`if (obj.HasField("name"))` guard exists exactly when the field is nullable
or has a declared default; under it, an absent list-typed field is assigned
`new col.List<T>()` by the `else` branch, while any other absent field is
simply not assigned and keeps its zero-argument-constructor value
(`initVal`).  Without the guard the accessor chosen by
`_get_decoder_method` (line 1018-1045, on the nullable-unwrapped type) is
invoked unconditionally; its behaviour on an absent entry is modelled from
the spec: a list accessor materializes an absent entry as the empty
sequence (list fields are always a non-null sequence, absent decodes to
empty), while reading an absent scalar or composite entry fails.

`decodeValue` gives the accessor semantics per unwrapped type (`GetField`,
`GetFieldObject` recursing into the nested composite's generated `Decode`,
`GetFieldList`/`GetFieldObjectList` wrapped in `new col.List<T>(...)`).

`decodeUnionGo` walks the `switch (decoder.GetUnionName())` of
`_generate_union_encodable_methods` (lines 1484-1506): every variant except
the union's `catch_all_field` gets a `case "name":`; the catch-all field
gets the `default:` case; with no catch-all field the `default:` case
throws `sys.InvalidOperationException`.  `GetUnionName()` and the decoder
positioning for composite variant payloads are modelled from the spec: the
discriminant is the `.tag` entry, and a value-carrying variant's payload is
read from the entry named after the variant. -/

mutual

def decodeValue : Ty → Wire → Except EErr Value
  | .boolT, .wbool b => .ok (.vbool b)
  | .intT _ _, .wint n => .ok (.vint n)
  | .strT _ _ _, .wstr s => .ok (.vstr s)
  | .listT t _ _, .wlist ws =>
    match decodeList t ws with
    | .ok vs => .ok (.vlist vs)
    | .error e => .error e
  | .structT fs, .wobj es =>
    match decodeFieldsGo fs es with
    | .ok vs => .ok (.vstruct vs)
    | .error e => .error e
  | .unionT vars ca, .wobj es =>
    match lookupW ".tag" es with
    | some (.wstr tag) => decodeUnionGo ca tag es vars none
    | _ => .error .runtime
  | _, _ => .error .runtime
termination_by t _w => (sizeOf t, 0)
decreasing_by
  all_goals simp_wf
  all_goals try omega
  all_goals (have h := optSizePos ca; omega)

def decodeList : Ty → List Wire → Except EErr (List Value)
  | _, [] => .ok []
  | t, w :: ws =>
    match decodeValue t w with
    | .error e => .error e
    | .ok v =>
      match decodeList t ws with
      | .error e => .error e
      | .ok vs => .ok (v :: vs)
termination_by t ws => (sizeOf t, 1 + sizeOf ws)

def decodeFieldsGo : List FieldT → List (String × Wire) → Except EErr (List Value)
  | [], _ => .ok []
  | (n, t, d) :: fs, es =>
    match decodeField (n, t, d) es with
    | .error e => .error e
    | .ok v =>
      match decodeFieldsGo fs es with
      | .error e => .error e
      | .ok vs => .ok (v :: vs)
termination_by fs _es => (sizeOf fs, 1)

def decodeField : FieldT → List (String × Wire) → Except EErr Value
  | (n, .nullT dt, d), es =>
    match lookupW n es with
    | some w => decodeValue dt w
    | none =>
      if isListT dt then .ok (.vlist [])
      else .ok (initVal (n, .nullT dt, d))
  | (n, t, some d), es =>
    match lookupW n es with
    | some w => decodeValue t w
    | none =>
      if isListT t then .ok (.vlist [])
      else .ok (initVal (n, t, some d))
  | (n, t, none), es =>
    match lookupW n es with
    | some w => decodeValue t w
    | none =>
      if isListT t then .ok (.vlist [])
      else .error .runtime
termination_by f _es => (sizeOf f.2.1, 2)

def decodeUnionGo (ca : Option String) (tag : String) (es : List (String × Wire)) :
    List (String × Ty) → Option (String × Ty) → Except EErr Value
  | [], cav =>
    match cav with
    | some (n, t) => decodeVariantBody n t es
    | none => .error .invalidOp
  | (n, t) :: rest, cav =>
    if ca == some n then decodeUnionGo ca tag es rest (some (n, t))
    else if tag == n then decodeVariantBody n t es
    else decodeUnionGo ca tag es rest cav
termination_by lst cav => (sizeOf lst + sizeOf cav, 0)
decreasing_by
  all_goals simp_wf
  all_goals try omega
  all_goals (have h := optSizePos cav; omega)

def decodeVariantBody (n : String) (t : Ty) (es : List (String × Wire)) : Except EErr Value :=
  if isVoidT t then .ok (.vunion n none)
  else
    match lookupW n es with
    | some w =>
      match decodeValue t w with
      | .ok v => .ok (.vunion n (some v))
      | .error e => .error e
    | none => .error .runtime
termination_by (sizeOf t, 1)

end

/-! ## Constraint & default compiler (`_check_constraints`, lines 621-686)

`checkConstraints` records what the constraint emitter writes into the
initializing constructor for one field: the defensive list copy
(`var xList = new col.List<T>(x ?? new T[0]);`), the null-rejection
(`if (x == null) throw new sys.ArgumentNullException("x");`, carrying the
argument name), the `||`-joined `ArgumentOutOfRangeException` condition,
and whether those range checks are guarded by a presence test
(`x != null && (...)`, used for nullable fields). -/

inductive Check where
  | minValC (b : Int)
  | maxValC (b : Int)
  | minLenC (b : Nat)
  | maxLenC (b : Nat)
  | patternC (p : String)
  | minItemsC (b : Nat)
  | maxItemsC (b : Nat)
deriving DecidableEq

structure ConstraintEmit where
  listCopy : Bool
  nullRejection : Option String
  checks : List Check
  checksPresenceGuarded : Bool
deriving DecidableEq

/-- The `checks` list built by `_check_constraints` from the unwrapped type's
declared bounds (numeric min/max, string length bounds and pattern, list
item bounds). -/
def boundChecks : Ty → List Check
  | .intT lo hi =>
    (match lo with | some b => [Check.minValC b] | none => []) ++
    (match hi with | some b => [Check.maxValC b] | none => [])
  | .strT mn mx pat =>
    (match mn with | some b => [Check.minLenC b] | none => []) ++
    (match mx with | some b => [Check.maxLenC b] | none => []) ++
    (match pat with | some p => [Check.patternC p] | none => [])
  | .listT _ mn mx =>
    (match mn with | some b => [Check.minItemsC b] | none => []) ++
    (match mx with | some b => [Check.maxItemsC b] | none => [])
  | _ => []

/-- `_check_constraints(name, data_type, has_null_check)`: unwrap one
nullable layer; emit the defensive copy for list types; emit the
null-rejection exactly when the field is not nullable, the unwrapped type is
reference-like (`_could_be_null`) and no prior null check was generated;
emit the range checks, presence-guarded when nullable. -/
def checkConstraints (name : String) (t : Ty) (hasNullCheck : Bool) : ConstraintEmit :=
  let nullable := isNullableT t
  let dt := stripNull t
  { listCopy := isListT dt
    nullRejection :=
      if !nullable && couldBeNull dt && !hasNullCheck then some name else none
    checks := boundChecks dt
    checksPresenceGuarded := nullable }

/-- Per-field emission in the initializing constructor
(`_generate_struct_init_ctor`, lines 1157-1168): `has_null_check` is set
exactly when the field has a declared default of composite type (then
`_process_composite_default` emits `if (x == null) x = Union.Tag.Instance;`
instead of a rejection); the pair is that flag together with the
`_check_constraints` output.  The argument name handed to
`_check_constraints` is the field's name (the generator camel-cases it
first; the casing is irrelevant to which checks exist). -/
def fieldCtorEmit (f : FieldT) : Bool × ConstraintEmit :=
  let hnc := f.2.2.isSome && isCompositeT f.2.1
  (hnc, checkConstraints f.1 f.2.1 hnc)

/-- The inputs of `_generate_struct_init_ctor` that decide the constructor's
shape: the struct's `all_fields`, the names implemented by its parent
hierarchy, and whether it has enumerated subtypes. -/
structure StructDecl where
  allFields : List FieldT
  parentFieldNames : List String
  hasEnumSubtypes : Bool

/-- `ctor_args`: one constructor argument per entry of `all_fields`
(`_make_struct_constructor_args`). -/
def ctorArgs (s : StructDecl) : List String := s.allFields.map (fun f => f.1)

/-- Line 1147: `'protected' if struct.has_enumerated_subtypes() and ctor_args
else 'public'`. -/
def initCtorAccess (s : StructDecl) : String :=
  if s.hasEnumSubtypes && !(ctorArgs s).isEmpty then "protected" else "public"

/-- Lines 1404-1410: the zero-argument constructor is generated iff the
struct has at least one field; afterwards each field holds `initVal`
(declared default, or the CLR zero value). -/
def genDefaultCtor (fs : List FieldT) : Option (List Value) :=
  if fs.isEmpty then none else some (fs.map initVal)

/-! ## The emitted union-encode branch chain (C3) -/

/-- One branch of the `Encode` dispatch emitted for a union
(`_generate_union_encodable_methods`, lines 1460-1478). -/
inductive UBranch where
  | ifIs (n : String)
  | elseIfIs (n : String)
  | elseCatch (n : String)
  | elseThrow
deriving DecidableEq

/-- The loop body of lines 1462-1474: branch `i` is `if (this.IsX)` at index
0, a bare `else` when the field is the union's catch-all field (and not at
index 0), and `else if (this.IsX)` otherwise. -/
def unionChainGo (ca : Option String) : Nat → List (String × Ty) → List UBranch
  | _, [] => []
  | i, (n, _) :: rest =>
    (if i == 0 then UBranch.ifIs n
     else if ca == some n then UBranch.elseCatch n
     else UBranch.elseIfIs n) :: unionChainGo ca (i + 1) rest

/-- The `has_catch_all` flag of lines 1461-1469: set when some branch with
index ≥ 1 was the catch-all field. -/
def hasCatchAllBranch (ca : Option String) : Nat → List (String × Ty) → Bool
  | _, [] => false
  | i, (n, _) :: rest =>
    (!(i == 0) && ca == some n) || hasCatchAllBranch ca (i + 1) rest

/-- The full emitted chain: the per-variant branches, followed by the
trailing `else { throw new sys.InvalidOperationException(); }` when no
catch-all branch was produced (lines 1476-1478). -/
def unionEncodeChain (vars : List (String × Ty)) (ca : Option String) : List UBranch :=
  unionChainGo ca 0 vars ++
    (if hasCatchAllBranch ca 0 vars then [] else [UBranch.elseThrow])

/-! ## Structs with enumerated subtypes (tagged families, C2)

`_generate_struct_encodable_methods` (lines 1299-1359) for a root struct
with enumerated subtypes: `Encode` dispatches on the concrete subtype via
the `Is` accessors and delegates to that subtype's own `Encode` (which
writes its recorded tag first, then all fields, lines 1317-1324); if no
subtype matches, the root's own fields are written behind the tag `''` when
the root `is_catch_all()`, else `InvalidOperationException`.  `Decode` reads
`.tag` and switches over the recorded subtype names; the `default:` case
decodes the root's own fields when the root `is_catch_all()`, else throws.
The per-subtype `is_catch_all` designation of the data model is never
consulted by the emitted dispatch. -/

structure SubDecl where
  tagName : String
  allFields : List FieldT
  isCatchAll : Bool

structure FamilyS where
  rootFields : List FieldT
  subs : List SubDecl
  rootCatchAll : Bool

inductive FamVal where
  | root (vs : List Value)
  | sub (i : Nat) (vs : List Value)

/-- Whether any member of the family (root or a subtype) is designated
catch-all — the notion the claim and the spec's data model use. -/
def famHasCatchAll (fam : FamilyS) : Bool :=
  fam.rootCatchAll || fam.subs.any (fun s => s.isCatchAll)

/-- Encode of a struct whose parent has enumerated subtypes (lines
1317-1324), and of a catch-all root (lines 1311-1316): the `.tag` entry
first, then all fields. -/
def encodeTagged (tag : String) (fs : List FieldT) (vs : List Value) : Except EErr Wire :=
  match encodeFields fs vs with
  | .ok es => .ok (.wobj ((".tag", .wstr tag) :: es))
  | .error e => .error e

/-- Root `Encode` dispatch (lines 1299-1316).  A `FamVal.sub i` instance
makes exactly the `i`-th `Is` accessor true; a root-typed instance makes
none true and reaches the `else` branch. -/
def encodeFamily (fam : FamilyS) : FamVal → Except EErr Wire
  | .sub i vs =>
    match fam.subs.get? i with
    | some sub => encodeTagged sub.tagName sub.allFields vs
    | none => .error .invalidCast
  | .root vs =>
    if fam.rootCatchAll then encodeTagged "" fam.rootFields vs
    else .error .invalidOp

/-- First subtype whose recorded name equals the tag, with its index
(the `switch` cases of lines 1342-1349 in declaration order). -/
def findSub (tag : String) : List SubDecl → Option (Nat × SubDecl)
  | [] => none
  | s :: rest =>
    if s.tagName == tag then some (0, s)
    else (findSub tag rest).map (fun p => (p.1 + 1, p.2))

/-- Root `Decode` (lines 1336-1359): read `.tag`; a known tag decodes the
matching subtype (its own `Decode` reads all fields from the object, the
`.tag` entry being skipped by name); the `default:` case decodes the root's
own fields when the root is the catch-all, else throws. -/
def decodeFamily (fam : FamilyS) (w : Wire) : Except EErr FamVal :=
  match w with
  | .wobj es =>
    match lookupW ".tag" es with
    | some (.wstr tag) =>
      match findSub tag fam.subs with
      | some (i, sub) =>
        match decodeFieldsGo sub.allFields es with
        | .ok vs => .ok (.sub i vs)
        | .error e => .error e
      | none =>
        if fam.rootCatchAll then
          match decodeFieldsGo fam.rootFields es with
          | .ok vs => .ok (.root vs)
          | .error e => .error e
        else .error .invalidOp
    | _ => .error .runtime
  | _ => .error .runtime

def wfFam (fam : FamilyS) : Bool :=
  wfTy (.structT fam.rootFields) &&
  nodupB (fam.subs.map SubDecl.tagName) &&
  fam.subs.all (fun s => wfTy (.structT s.allFields) && !(s.tagName == "") && !(s.tagName == ".tag"))

def validFam (fam : FamilyS) : FamVal → Bool
  | .root vs => fam.rootCatchAll && validFields fam.rootFields vs
  | .sub i vs =>
    match fam.subs.get? i with
    | some sub => validFields sub.allFields vs
    | none => false

/-! ## Scope-collision resolution (`_local_names` and `_typename`, C8) -/

/-- The generator's name-scope state: `self._name_list`, a stack of groups
of locally declared public names (`_local_names`, lines 342-356).
`self._prevent_collisions` is always the union of the stack's groups. -/
structure GenScope where
  nameList : List (List (List Nat))

def preventCollisions (g : GenScope) : List (List Nat) := g.nameList.flatten

/-- Entering a `_local_names` context: push the group and recompute the
collision set. -/
def pushLocalNames (g : GenScope) (names : List (List Nat)) : GenScope :=
  ⟨names :: g.nameList⟩

/-- Leaving a `_local_names` context: pop the group and recompute. -/
def popLocalNames (g : GenScope) : GenScope :=
  ⟨g.nameList.tail⟩

/-- `DEFAULT_NAMESPACE = 'Dropbox.Api.'`. -/
def dropboxApiNs : List Nat := codes "Dropbox.Api."

/-- The composite branch of `_typename` (lines 479-487): take the public
name; prefix the public namespace name when the type lives in another
namespace; if the resulting name is in the collision set, return the fully
qualified `DEFAULT_NAMESPACE + current_namespace + '.' + name`. -/
def typenameComposite (g : GenScope) (curNs : List Nat) (tyNsRaw : List Nat)
    (tyNameRaw : List Nat) : List Nat :=
  let pub := publicName tyNameRaw
  let typeNs := publicName tyNsRaw
  let pub2 := if typeNs = curNs then pub else typeNs ++ dotC :: pub
  if pub2 ∈ preventCollisions g then dropboxApiNs ++ curNs ++ dotC :: pub2 else pub2

/-! ## Spec-side emission predicate (for the amended C6) -/

/-- When, according to the amended claim, a struct field is present on the
wire: always, except a nullable list field holding the empty sequence and a
nullable non-list field holding null. -/
def shouldEmit (t : Ty) (v : Value) : Bool :=
  match t with
  | .nullT dt =>
    if isListT dt then
      match v with
      | .vlist [] => false
      | _ => true
    else
      match v with
      | .vnull => false
      | _ => true
  | _ => true

/-! ### Facts about the segmentation pipeline -/

theorem upAZ_bounds {c : Nat} (h : isUpAZ c = true) : 65 ≤ c ∧ c ≤ 90 := by
  simpa [isUpAZ] using h

theorem pyLower_not_up (c : Nat) : isUpAZ (pyLower c) = false := by
  unfold pyLower
  split
  · next hup =>
    have h := upAZ_bounds hup
    simp only [isUpAZ, decide_eq_false_iff_not]
    omega
  · next hup => simpa using hup

theorem pyLower_of_not_up {c : Nat} (h : isUpAZ c = false) : pyLower c = c := by
  simp [pyLower, h]

theorem pyLower_idem (c : Nat) : pyLower (pyLower c) = pyLower c :=
  pyLower_of_not_up (pyLower_not_up c)

theorem pyLower_usc : pyLower usc = usc := by decide

theorem pyLower_ne_slash (c : Nat) (h : c ≠ slashC) : pyLower c ≠ slashC := by
  unfold pyLower
  split
  · next hup =>
    have := upAZ_bounds hup
    simp only [slashC]
    omega
  · exact h

theorem replSlash_no_slash (s : List Nat) (c : Nat) (h : c ∈ replSlash s) : c ≠ slashC := by
  unfold replSlash at h
  rcases List.mem_map.mp h with ⟨d, _, hd⟩
  subst hd
  by_cases hds : d = slashC
  · rw [if_pos hds]; decide
  · rw [if_neg hds]; exact hds

theorem mem_camelSub (p : Option Nat) (s : List Nat) (c : Nat) (h : c ∈ camelSub p s) :
    c = usc ∨ c ∈ s := by
  induction s generalizing p with
  | nil => simp [camelSub] at h
  | cons a rest ih =>
    unfold camelSub at h
    by_cases hb : camelBreak p a rest.head? = true
    · simp only [hb, if_pos] at h
      rcases List.mem_append.mp h with h1 | h2
      · rcases List.mem_cons.mp h1 with h3 | h3
        · exact Or.inl h3
        · have h4 := List.mem_singleton.mp h3
          subst h4
          exact Or.inr (List.mem_cons_self c rest)
      · rcases ih (some a) h2 with h3 | h3
        · exact Or.inl h3
        · exact Or.inr (List.mem_cons_of_mem _ h3)
    · simp only [hb, if_neg, Bool.false_eq_true, not_false_iff] at h
      rcases List.mem_append.mp h with h1 | h2
      · simp at h1; simp [h1]
      · rcases ih (some a) h2 with h3 | h3
        · exact Or.inl h3
        · exact Or.inr (List.mem_cons_of_mem _ h3)

theorem splitU_ne_nil (s : List Nat) : splitU s ≠ [] := by
  induction s with
  | nil => simp [splitU]
  | cons c rest ih =>
    unfold splitU
    by_cases h : c = usc
    · simp [h]
    · simp only [h, if_neg, not_false_iff]
      match hs : splitU rest with
      | [] => simp
      | s :: ss => simp

theorem mem_splitU_no_usc (s : List Nat) (t : List Nat) (ht : t ∈ splitU s) : usc ∉ t := by
  induction s generalizing t with
  | nil =>
    simp only [splitU, List.mem_singleton] at ht
    simp [ht]
  | cons c rest ih =>
    unfold splitU at ht
    by_cases h : c = usc
    · simp only [h, if_pos] at ht
      rcases List.mem_cons.mp ht with h1 | h1
      · simp [h1]
      · exact ih t h1
    · simp only [h, if_neg, not_false_iff] at ht
      match hs : splitU rest with
      | [] => exact absurd hs (splitU_ne_nil rest)
      | s :: ss =>
        rw [hs] at ht
        rcases List.mem_cons.mp ht with h1 | h1
        · subst h1
          intro hm
          rcases List.mem_cons.mp hm with h2 | h2
          · exact h h2.symm
          · exact ih s (hs ▸ List.mem_cons_self s ss) h2
        · exact ih t (hs ▸ List.mem_cons_of_mem _ h1)

theorem mem_of_mem_splitU (s : List Nat) (t : List Nat) (c : Nat)
    (ht : t ∈ splitU s) (hc : c ∈ t) : c ∈ s := by
  induction s generalizing t with
  | nil =>
    simp only [splitU, List.mem_singleton] at ht
    subst ht; simp at hc
  | cons a rest ih =>
    unfold splitU at ht
    by_cases h : a = usc
    · simp only [h, if_pos] at ht
      rcases List.mem_cons.mp ht with h1 | h1
      · subst h1; simp at hc
      · exact List.mem_cons_of_mem _ (ih t h1 hc)
    · simp only [h, if_neg, not_false_iff] at ht
      match hs : splitU rest with
      | [] => exact absurd hs (splitU_ne_nil rest)
      | s :: ss =>
        rw [hs] at ht
        rcases List.mem_cons.mp ht with h1 | h1
        · subst h1
          rcases List.mem_cons.mp hc with h2 | h2
          · simp [h2]
          · exact List.mem_cons_of_mem _ (ih s (hs ▸ List.mem_cons_self s ss) h2)
        · exact List.mem_cons_of_mem _ (ih t (hs ▸ List.mem_cons_of_mem _ h1) hc)

theorem splitU_append (a : List Nat) (xs : List Nat) (s : List Nat) (ss : List (List Nat))
    (ha : usc ∉ a) (hxs : splitU xs = s :: ss) :
    splitU (a ++ xs) = (a ++ s) :: ss := by
  induction a with
  | nil => simpa using hxs
  | cons c rest ih =>
    have hc : c ≠ usc := fun h => ha (h ▸ List.mem_cons_self c rest)
    have hrest : usc ∉ rest := fun h => ha (List.mem_cons_of_mem _ h)
    simp only [List.cons_append]
    unfold splitU
    simp only [hc, if_neg, not_false_iff]
    rw [ih hrest]

theorem splitU_no_usc (a : List Nat) (ha : usc ∉ a) : splitU a = [a] := by
  induction a with
  | nil => rfl
  | cons c cs ih =>
    have hc : c ≠ usc := fun hh => ha (hh ▸ List.mem_cons_self c cs)
    have hcs : usc ∉ cs := fun hh => ha (List.mem_cons_of_mem _ hh)
    unfold splitU
    rw [if_neg hc, ih hcs]

theorem splitU_joinU (ss : List (List Nat)) (hne : ss ≠ [])
    (h : ∀ s ∈ ss, usc ∉ s) : splitU (joinU ss) = ss := by
  induction ss with
  | nil => exact absurd rfl hne
  | cons a rest ih =>
    match rest with
    | [] =>
      unfold joinU
      exact splitU_no_usc a (h a (List.mem_cons_self a []))
    | b :: rest' =>
      have hj : joinU (a :: b :: rest') = a ++ usc :: joinU (b :: rest') := rfl
      rw [hj]
      have hrec : splitU (joinU (b :: rest')) = b :: rest' :=
        ih (by simp) (fun s hs => h s (List.mem_cons_of_mem _ hs))
      have hstep : splitU (usc :: joinU (b :: rest')) = [] :: b :: rest' := by
        unfold splitU
        simp [hrec]
      have ha := h a (List.mem_cons_self a _)
      rw [splitU_append a _ [] (b :: rest') ha hstep]
      simp

theorem camelSub_id (p : Option Nat) (s : List Nat)
    (h : ∀ c ∈ s, isUpAZ c = false) : camelSub p s = s := by
  induction s generalizing p with
  | nil => rfl
  | cons c rest ih =>
    unfold camelSub
    have hc : isUpAZ c = false := h c (List.mem_cons_self c rest)
    have hb : camelBreak p c rest.head? = false := by
      unfold camelBreak
      simp [hc]
    simp only [hb, Bool.false_eq_true, if_neg, not_false_iff]
    rw [ih (some c) (fun d hd => h d (List.mem_cons_of_mem _ hd))]
    rfl

theorem mem_joinU (ss : List (List Nat)) (c : Nat) (h : c ∈ joinU ss) :
    c = usc ∨ ∃ s ∈ ss, c ∈ s := by
  induction ss with
  | nil => simp [joinU] at h
  | cons a rest ih =>
    match rest with
    | [] =>
      unfold joinU at h
      exact Or.inr ⟨a, List.mem_cons_self a [], h⟩
    | b :: rest' =>
      have hj : joinU (a :: b :: rest') = a ++ usc :: joinU (b :: rest') := rfl
      rw [hj] at h
      rcases List.mem_append.mp h with h1 | h2
      · exact Or.inr ⟨a, List.mem_cons_self a _, h1⟩
      · rcases List.mem_cons.mp h2 with h3 | h3
        · exact Or.inl h3
        · rcases ih h3 with h4 | ⟨s, hs, hcs⟩
          · exact Or.inl h4
          · exact Or.inr ⟨s, List.mem_cons_of_mem _ hs, hcs⟩

/-- Every character of a segment produced by `segmentName` is the image of
`pyLower`. -/
theorem segmentName_chars (x : List Nat) (s : List Nat) (c : Nat)
    (hs : s ∈ segmentName x) (hc : c ∈ s) : ∃ d, c = pyLower d := by
  unfold segmentName at hs
  have h1 : c ∈ lowerAll (camelSub none (replSlash x)) :=
    mem_of_mem_splitU _ s c hs hc
  unfold lowerAll at h1
  rcases List.mem_map.mp h1 with ⟨d, _, hd⟩
  exact ⟨d, hd.symm⟩

theorem segmentName_no_slash (x : List Nat) (s : List Nat) (c : Nat)
    (hs : s ∈ segmentName x) (hc : c ∈ s) : c ≠ slashC := by
  unfold segmentName at hs
  have h1 : c ∈ lowerAll (camelSub none (replSlash x)) :=
    mem_of_mem_splitU _ s c hs hc
  unfold lowerAll at h1
  rcases List.mem_map.mp h1 with ⟨d, hdmem, hd⟩
  subst hd
  rcases mem_camelSub none _ d hdmem with h2 | h2
  · subst h2; decide
  · exact pyLower_ne_slash d (replSlash_no_slash x d h2)

theorem replSlash_id (s : List Nat) (h : ∀ c ∈ s, c ≠ slashC) : replSlash s = s := by
  unfold replSlash
  induction s with
  | nil => rfl
  | cons c rest ih =>
    simp only [List.map_cons]
    rw [if_neg (h c (List.mem_cons_self c rest))]
    rw [ih (fun d hd => h d (List.mem_cons_of_mem _ hd))]

theorem lowerAll_id (s : List Nat) (h : ∀ c ∈ s, pyLower c = c) : lowerAll s = s := by
  unfold lowerAll
  induction s with
  | nil => rfl
  | cons c rest ih =>
    simp only [List.map_cons]
    rw [h c (List.mem_cons_self c rest)]
    rw [ih (fun d hd => h d (List.mem_cons_of_mem _ hd))]

/-- **C9.** For every valid identifier `x`, segmenting the underscore-rejoin of
its own segmentation yields the same result as segmenting `x` directly:
`_segment_name('_'.join(_segment_name(x))) == _segment_name(x)`. -/
theorem c9_segment_idempotent (x : List Nat) (_hx : validIdent x = true) :
    segmentName (joinU (segmentName x)) = segmentName x := by
  have hchar : ∀ c ∈ joinU (segmentName x), c = usc ∨ ∃ d, c = pyLower d := by
    intro c hc
    rcases mem_joinU _ c hc with h | ⟨s, hs, hcs⟩
    · exact Or.inl h
    · exact Or.inr (segmentName_chars x s c hs hcs)
  have hrepl : replSlash (joinU (segmentName x)) = joinU (segmentName x) := by
    apply replSlash_id
    intro c hc
    rcases mem_joinU _ c hc with h | ⟨s, hs, hcs⟩
    · subst h; decide
    · exact segmentName_no_slash x s c hs hcs
  have hcamel : camelSub none (joinU (segmentName x)) = joinU (segmentName x) := by
    apply camelSub_id
    intro c hc
    rcases hchar c hc with h | ⟨d, hd⟩
    · subst h; decide
    · subst hd; exact pyLower_not_up d
  have hlower : lowerAll (joinU (segmentName x)) = joinU (segmentName x) := by
    apply lowerAll_id
    intro c hc
    rcases hchar c hc with h | ⟨d, hd⟩
    · subst h; exact pyLower_usc
    · subst hd; exact pyLower_idem d
  show splitU (lowerAll (camelSub none (replSlash (joinU (segmentName x))))) = segmentName x
  rw [hrepl, hcamel, hlower]
  exact splitU_joinU (segmentName x) (splitU_ne_nil _)
    (fun s hs => mem_splitU_no_usc _ s hs)

/-- Witness for C9 at the concrete identifier `GetSharedLinksResult/fooBar_v2`. -/
theorem c9_segment_idempotent_witness :
    validIdent (codes "GetSharedLinksResult/fooBar_v2") = true ∧
      segmentName (joinU (segmentName (codes "GetSharedLinksResult/fooBar_v2"))) =
        segmentName (codes "GetSharedLinksResult/fooBar_v2") :=
  ⟨by decide, c9_segment_idempotent (codes "GetSharedLinksResult/fooBar_v2") (by decide)⟩

/-! ## C10: access of the initializing constructor -/

/-- **C10.** For every struct that has enumerated subtypes and at least one
constructor argument, the emitted initializing constructor is declared
`protected`; for every other struct it is declared `public`. -/
theorem c10_init_ctor_access (s : StructDecl) :
    (s.hasEnumSubtypes = true ∧ ctorArgs s ≠ [] → initCtorAccess s = "protected") ∧
    (¬(s.hasEnumSubtypes = true ∧ ctorArgs s ≠ []) → initCtorAccess s = "public") := by
  constructor
  · rintro ⟨h1, h2⟩
    have hcond : (s.hasEnumSubtypes && !(ctorArgs s).isEmpty) = true := by
      rw [h1]
      cases hargs : ctorArgs s with
      | nil => exact absurd hargs h2
      | cons a rest => rfl
    simp [initCtorAccess, hcond]
  · intro h
    have hcond : (s.hasEnumSubtypes && !(ctorArgs s).isEmpty) = false := by
      cases hE : s.hasEnumSubtypes with
      | false => rfl
      | true =>
        cases hargs : ctorArgs s with
        | nil => simp [hargs]
        | cons a rest => exact absurd ⟨hE, by simp [hargs]⟩ h
    simp [initCtorAccess, hcond]

/-- Witness for C10: a two-field struct with enumerated subtypes gets a
`protected` constructor; the same struct without subtypes gets `public`. -/
theorem c10_init_ctor_access_witness :
    initCtorAccess ⟨[("size", Ty.intT none none, none)], [], true⟩ = "protected" ∧
    initCtorAccess ⟨[("size", Ty.intT none none, none)], [], false⟩ = "public" :=
  ⟨(c10_init_ctor_access ⟨[("size", Ty.intT none none, none)], [], true⟩).1
      ⟨rfl, by simp [ctorArgs]⟩,
   (c10_init_ctor_access ⟨[("size", Ty.intT none none, none)], [], false⟩).2
      (by rintro ⟨h, _⟩; exact Bool.noConfusion h)⟩

/-! ## C4: the null-rejection check in the initializing constructor -/

/-- **C4, counterexample.** The claim says the null-rejection check is
emitted exactly when the field has no declared default and is not nullable.
But for the non-nullable string field `greeting` with declared default
`"hello"` — a reference-like field with a declared default — the emitted
constructor still contains `if (greeting == null) throw new
sys.ArgumentNullException("greeting");`, because `_generate_struct_init_ctor`
suppresses the check only for composite defaults. -/
theorem c4_counterexample :
    (fieldCtorEmit ("greeting", Ty.strT none none none,
        some (Dflt.dstr "hello"))).2.nullRejection = some "greeting" ∧
    (some (Dflt.dstr "hello")).isSome = true ∧
    isNullableT (Ty.strT none none none) = false ∧
    couldBeNull (stripNull (Ty.strT none none none)) = true :=
  ⟨rfl, rfl, rfl, rfl⟩

/-- **C4 (amended).** For every struct field whose unwrapped type is
reference-like (composite, string, or list), the generated initializing
constructor contains a null-rejection check naming the field exactly when
the field is not nullable and does not have a declared default of
composite (union) type.  (A non-composite default — e.g. a string default —
does not suppress the check.) -/
theorem c4_null_rejection (f : FieldT)
    (href : couldBeNull (stripNull f.2.1) = true) :
    (fieldCtorEmit f).2.nullRejection = some f.1 ↔
      (isNullableT f.2.1 = false ∧ (f.2.2.isSome && isCompositeT f.2.1) = false) := by
  obtain ⟨n, t, d⟩ := f
  simp only [fieldCtorEmit, checkConstraints] at *
  constructor
  · intro h
    by_cases hcond : (!isNullableT t && couldBeNull (stripNull t) &&
        !(d.isSome && isCompositeT t)) = true
    · simp only [Bool.and_eq_true, Bool.not_eq_true'] at hcond
      exact ⟨hcond.1.1, hcond.2⟩
    · rw [if_neg hcond] at h
      exact absurd h (by simp)
  · rintro ⟨h1, h2⟩
    have hcond : (!isNullableT t && couldBeNull (stripNull t) &&
        !(d.isSome && isCompositeT t)) = true := by
      simp only [Bool.and_eq_true, Bool.not_eq_true']
      exact ⟨⟨h1, href⟩, h2⟩
    rw [if_pos hcond]

/-- Witness for C4 (amended) at a plain non-nullable string field. -/
theorem c4_null_rejection_witness :
    couldBeNull (stripNull (Ty.strT none none none)) = true ∧
    (fieldCtorEmit ("path", Ty.strT none none none, none)).2.nullRejection = some "path" :=
  ⟨rfl, (c4_null_rejection ("path", Ty.strT none none none, none) rfl).mpr ⟨rfl, rfl⟩⟩

/-! ## C7: the zero-argument constructor -/

/-- **C7, counterexample.** The claim says fields without a declared default
are pre-populated with their type's zero-state, "null, or an empty sequence
for list-typed fields".  But `_generate_struct_default_ctor` assigns nothing
to non-defaulted fields, so a list-typed field is left at the CLR default
`null`, not an empty sequence. -/
theorem c7_counterexample :
    genDefaultCtor [("tags", Ty.listT (Ty.strT none none none) none none, none)]
        = some [Value.vnull] ∧
    Value.vnull ≠ Value.vlist [] :=
  ⟨rfl, fun h => Value.noConfusion h⟩

/-- **C7 (amended).** For every struct with at least one field, a
zero-argument constructor is generated; it pre-populates every field having
a declared default with that default value (union defaults with the variant
singleton) and leaves every other field at the CLR zero value of its type —
`false`/`0` for value types and `null` for reference types, including
list-typed fields (the empty-sequence materialization happens in `Decode`'s
absent branch, not in this constructor). -/
theorem c7_default_ctor (fs : List FieldT) (hne : fs ≠ []) :
    genDefaultCtor fs = some (fs.map initVal) ∧
    (∀ f ∈ fs, ∀ d, f.2.2 = some d → initVal f = dfltValue d) ∧
    (∀ f ∈ fs, f.2.2 = none → initVal f = clrDefault f.2.1) ∧
    (∀ t mn mx, clrDefault (Ty.listT t mn mx) = Value.vnull) := by
  refine ⟨?_, ?_, ?_, fun t mn mx => rfl⟩
  · cases fs with
    | nil => exact absurd rfl hne
    | cons f rest => rfl
  · intro f _ d hd
    simp [initVal, hd]
  · intro f _ hd
    simp [initVal, hd]

/-- Witness for C7 (amended): a struct with a defaulted boolean field and a
plain string field. -/
theorem c7_default_ctor_witness :
    genDefaultCtor [("mute", Ty.boolT, some (Dflt.dbool true)),
        ("path", Ty.strT none none none, none)]
      = some [Value.vbool true, Value.vnull] := by
  have h := c7_default_ctor [("mute", Ty.boolT, some (Dflt.dbool true)),
      ("path", Ty.strT none none none, none)] (by simp)
  rw [h.1]
  rfl

/-! ## C8: scope-local name-collision resolution -/

/-- **C8.** While the generator is inside a `_local_names` scope holding a
union's declared variant public names, every composite-type reference whose
short public name is in the collision set is emitted namespace-qualified:
same-namespace references become `Dropbox.Api.<ns>.<Name>`, and
other-namespace references are already emitted behind their namespace
prefix.  Leaving the scope restores the previous state, and a name that is
in no remaining group no longer forces qualification. -/
theorem c8_scope_collision (g : GenScope) (names : List (List Nat))
    (curNs tyNsRaw tyNameRaw : List Nat)
    (hin : publicName tyNameRaw ∈ preventCollisions (pushLocalNames g names))
    (hsame : publicName tyNsRaw = curNs) :
    typenameComposite (pushLocalNames g names) curNs tyNsRaw tyNameRaw
        = dropboxApiNs ++ curNs ++ dotC :: publicName tyNameRaw ∧
    popLocalNames (pushLocalNames g names) = g ∧
    (publicName tyNameRaw ∉ preventCollisions g →
      typenameComposite g curNs tyNsRaw tyNameRaw = publicName tyNameRaw) ∧
    (∀ oNsRaw : List Nat, publicName oNsRaw ≠ curNs →
      typenameComposite (pushLocalNames g names) curNs oNsRaw tyNameRaw
          = publicName oNsRaw ++ dotC :: publicName tyNameRaw ∨
      typenameComposite (pushLocalNames g names) curNs oNsRaw tyNameRaw
          = dropboxApiNs ++ curNs ++ dotC ::
              (publicName oNsRaw ++ dotC :: publicName tyNameRaw)) := by
  refine ⟨?_, rfl, ?_, ?_⟩
  · simp [typenameComposite, hsame, hin]
  · intro hout
    simp [typenameComposite, hsame, hout]
  · intro oNsRaw hne
    by_cases hcoll : (publicName oNsRaw ++ dotC :: publicName tyNameRaw)
        ∈ preventCollisions (pushLocalNames g names)
    · right
      simp [typenameComposite, hne, hcoll]
    · left
      simp [typenameComposite, hne, hcoll]

/-- Witness for C8: the union `Point` in namespace `sharing` with a variant
also named `point`; inside the union's scope a reference to the top-level
type `point` of the same namespace resolves to
`Dropbox.Api.Sharing.Point`, and after the scope is exited it resolves to
the short `Point` again. -/
theorem c8_scope_collision_witness :
    typenameComposite (pushLocalNames ⟨[]⟩ [codes "Point"]) (codes "Sharing")
        (codes "sharing") (codes "point")
        = dropboxApiNs ++ codes "Sharing" ++ dotC :: publicName (codes "point") ∧
    popLocalNames (pushLocalNames ⟨[]⟩ [codes "Point"]) = (⟨[]⟩ : GenScope) ∧
    typenameComposite ⟨[]⟩ (codes "Sharing") (codes "sharing") (codes "point")
        = publicName (codes "point") := by
  have h := c8_scope_collision ⟨[]⟩ [codes "Point"] (codes "Sharing")
      (codes "sharing") (codes "point") (by decide) (by decide)
  exact ⟨h.1, h.2.1, h.2.2.1 (by decide)⟩

/-! ## C3: union `Encode` dispatch -/

theorem mem_of_getLastQ {α : Type} (l : List α) (x : α) (h : l.getLast? = some x) :
    x ∈ l := by
  have hx := List.mem_getLast?_eq_getLast (l := l) (x := x) (by rw [h]; exact rfl)
  obtain ⟨hne, rfl⟩ := hx
  exact List.getLast_mem hne

theorem not_mem_of_contains_false {α : Type} [BEq α] [LawfulBEq α] (l : List α) (a : α)
    (h : l.contains a = false) : a ∉ l := by
  intro hm
  have h2 : l.contains a = true := List.elem_eq_true_of_mem hm
  rw [h] at h2
  exact Bool.noConfusion h2

theorem nodupB_cons {n : String} {rest : List String} (h : nodupB (n :: rest) = true) :
    n ∉ rest ∧ nodupB rest = true := by
  unfold nodupB at h
  rcases Bool.and_eq_true_iff.mp h with ⟨h1, h2⟩
  rw [Bool.not_eq_true'] at h1
  exact ⟨not_mem_of_contains_false rest n h1, h2⟩

/-- In a union with no duplicate variant names, a variant name determines
its value type. -/
theorem nodupB_name_unique : ∀ (lst : List (String × Ty)) (m : String) (u u' : Ty),
    nodupB (lst.map (fun v => v.1)) = true → (m, u) ∈ lst → (m, u') ∈ lst → u = u' := by
  intro lst
  induction lst with
  | nil => intro m u u' _ h; simp at h
  | cons hd rest ih =>
    intro m u u' hnodup h1 h2
    obtain ⟨n0, t0⟩ := hd
    obtain ⟨hni, hnd⟩ := nodupB_cons (by simpa using hnodup)
    rcases List.mem_cons.mp h1 with e1 | e1 <;> rcases List.mem_cons.mp h2 with e2 | e2
    · exact congrArg Prod.snd (e1.trans e2.symm)
    · exfalso
      have hm0 : m = n0 := congrArg Prod.fst e1
      subst hm0
      exact hni (List.mem_map_of_mem (fun v : String × Ty => v.1) e2)
    · exfalso
      have hm0 : m = n0 := congrArg Prod.fst e2
      subst hm0
      exact hni (List.mem_map_of_mem (fun v : String × Ty => v.1) e1)
    · exact ih m u u' hnd e1 e2

/-- `caLastOk` plus distinct names force the catch-all member, if present in
the list, to be its last element. -/
theorem caOnlyLast_of (ca : Option String) (vars : List (String × Ty))
    (hca : caLastOk ca vars = true)
    (hnodup : nodupB (vars.map (fun v => v.1)) = true) :
    ∀ m u, (m, u) ∈ vars → ca = some m → vars.getLast? = some (m, u) := by
  intro m u hmem hcam
  subst hcam
  unfold caLastOk at hca
  match hlast : vars.getLast? with
  | none => rw [hlast] at hca; exact Bool.noConfusion hca
  | some (nL, tL) =>
    rw [hlast] at hca
    have hnm : nL = m := eq_of_beq hca
    subst hnm
    have hmemL : (nL, tL) ∈ vars := mem_of_getLastQ vars (nL, tL) hlast
    have := nodupB_name_unique vars nL u tL hnodup hmem hmemL
    rw [this]

/-- Every variant that is not the union's catch-all field appears in the
emitted chain as an `Is` identity check (an `if` or `else if`). -/
theorem unionChain_checks (ca : Option String) (n : String) (t : Ty) :
    ∀ (i : Nat) (lst : List (String × Ty)), (n, t) ∈ lst → ca ≠ some n →
    UBranch.ifIs n ∈ unionChainGo ca i lst ∨ UBranch.elseIfIs n ∈ unionChainGo ca i lst := by
  intro i lst
  induction lst generalizing i with
  | nil => intro h; simp at h
  | cons hd rest ih =>
    intro hmem hne
    obtain ⟨n', t'⟩ := hd
    rcases List.mem_cons.mp hmem with he | he
    · obtain ⟨rfl, rfl⟩ := Prod.mk.injEq .. ▸ he
      by_cases hi : (i == 0) = true
      · left
        unfold unionChainGo
        rw [if_pos hi]
        exact List.mem_cons_self _ _
      · right
        unfold unionChainGo
        rw [if_neg (by simp [hi]), if_neg (by intro hc; exact hne (eq_of_beq hc ▸ rfl))]
        exact List.mem_cons_self _ _
    · have hr := ih (i + 1) he hne
      unfold unionChainGo
      rcases hr with h | h
      · left; exact List.mem_cons_of_mem _ h
      · right; exact List.mem_cons_of_mem _ h

/-- The catch-all field, when not the first declared variant, is emitted as
a bare `else` branch. -/
theorem unionChain_catchall (c : String) (t : Ty) :
    ∀ (i : Nat) (lst : List (String × Ty)), (c, t) ∈ lst → i ≠ 0 →
    UBranch.elseCatch c ∈ unionChainGo (some c) i lst := by
  intro i lst
  induction lst generalizing i with
  | nil => intro h; simp at h
  | cons hd rest ih =>
    intro hmem hi
    obtain ⟨n', t'⟩ := hd
    unfold unionChainGo
    rcases List.mem_cons.mp hmem with he | he
    · obtain ⟨rfl, rfl⟩ := Prod.mk.injEq .. ▸ he
      rw [if_neg (by simp [hi]), if_pos (by simp)]
      exact List.mem_cons_self _ _
    · exact List.mem_cons_of_mem _ (ih (i + 1) he (by omega))

/-- For a union whose catch-all field is its last variant (or absent), the
encode chain routes a variant instance to that variant's own `Encode`. -/
theorem encodeUnionGo_matches (ca : Option String) :
    ∀ (lst : List (String × Ty)) (first : Bool) (n : String) (t : Ty) (p : Option Value),
    (n, t) ∈ lst →
    nodupB (lst.map (fun v => v.1)) = true →
    (∀ m u, (m, u) ∈ lst → ca = some m → lst.getLast? = some (m, u)) →
    encodeUnionGo ca first lst (.vunion n p) = encodeVariant n t p := by
  intro lst
  induction lst with
  | nil => intro first n t p h; simp at h
  | cons hd rest ih =>
    intro first n t p hmem hnodup hlast
    obtain ⟨n', t'⟩ := hd
    obtain ⟨hni, hnd⟩ := nodupB_cons (by simpa using hnodup)
    unfold encodeUnionGo
    by_cases hc1 : (!first && ca == some n') = true
    · -- the bare `else` branch for the catch-all: the head must be the last
      -- element, hence the only one, hence the instance's variant
      have hcam : ca = some n' := eq_of_beq (Bool.and_eq_true_iff.mp hc1).2
      have hlast' := hlast n' t' (List.mem_cons_self _ _) hcam
      match hrest : rest with
      | [] =>
        rcases List.mem_singleton.mp hmem with hp
        obtain ⟨rfl, rfl⟩ := Prod.mk.injEq .. ▸ hp
        rw [if_pos hc1]
        unfold castEncode
        rw [if_pos (by simp)]
      | r :: rs =>
        rw [List.getLast?_cons_cons] at hlast'
        have hmemL : (n', t') ∈ r :: rs := mem_of_getLastQ _ _ hlast'
        exact absurd (List.mem_map_of_mem (fun v => v.1) hmemL) (by simpa [hrest] using hni)
    · rw [if_neg hc1]
      by_cases hc2 : (n == n') = true
      · have hn : n = n' := eq_of_beq hc2
        subst hn
        have ht : t = t' := by
          rcases List.mem_cons.mp hmem with he | he
          · exact congrArg Prod.snd he
          · exact absurd (List.mem_map_of_mem (fun v => v.1) he) (by simpa using hni)
        subst ht
        rw [if_pos (by simp [hc2])]
        unfold castEncode
        rw [if_pos hc2]
      · rw [if_neg (by simpa using hc2)]
        have hmem' : (n, t) ∈ rest := by
          rcases List.mem_cons.mp hmem with he | he
          · exact absurd (beq_iff_eq.mpr (congrArg Prod.fst he)) hc2
          · exact he
        apply ih false n t p hmem' hnd
        intro m u hm hcm
        have h1 := hlast m u (List.mem_cons_of_mem _ hm) hcm
        cases rest with
        | nil => simp at hmem'
        | cons r rs =>
          rw [List.getLast?_cons_cons] at h1
          exact h1

/-- In a union with no catch-all field, an instance matching no variant
falls through the whole chain to the trailing
`throw new sys.InvalidOperationException();`. -/
theorem encodeUnionGo_nomatch :
    ∀ (lst : List (String × Ty)) (first : Bool) (m : String) (p : Option Value),
    (∀ n t, (n, t) ∈ lst → m ≠ n) →
    encodeUnionGo none first lst (.vunion m p) = .error .invalidOp := by
  intro lst
  induction lst with
  | nil => intro first m p _; simp [encodeUnionGo]
  | cons hd rest ih =>
    intro first m p hnot
    obtain ⟨n', t'⟩ := hd
    unfold encodeUnionGo
    rw [if_neg (by simp), if_neg]
    · exact ih false m p (fun n t h => hnot n t (List.mem_cons_of_mem _ h))
    · intro hc
      exact hnot n' t' (List.mem_cons_self _ _) (eq_of_beq (by simpa using hc))

/-- **C3, counterexample.** For the union with variants `first` and `other`
where `other` is the catch-all field, the emitted `Encode` chain is
`if (this.IsFirst) {...} else {...}`: the catch-all variant `other` is
handled by a bare `else` and is never identity-checked via its `IsOther`
accessor, contradicting the claim that `Encode` "identity-checks each
variant (via its Is-accessor) in declared field order". -/
theorem c3_counterexample :
    unionEncodeChain [("first", Ty.voidT), ("other", Ty.voidT)] (some "other")
        = [UBranch.ifIs "first", UBranch.elseCatch "other"] ∧
    UBranch.ifIs "other"
        ∉ unionEncodeChain [("first", Ty.voidT), ("other", Ty.voidT)] (some "other") ∧
    UBranch.elseIfIs "other"
        ∉ unionEncodeChain [("first", Ty.voidT), ("other", Ty.voidT)] (some "other") := by
  refine ⟨?_, ?_, ?_⟩
  · simp [unionEncodeChain, unionChainGo, hasCatchAllBranch]
  · rw [show unionEncodeChain [("first", Ty.voidT), ("other", Ty.voidT)] (some "other")
        = [UBranch.ifIs "first", UBranch.elseCatch "other"] by
      simp [unionEncodeChain, unionChainGo, hasCatchAllBranch]]
    decide
  · rw [show unionEncodeChain [("first", Ty.voidT), ("other", Ty.voidT)] (some "other")
        = [UBranch.ifIs "first", UBranch.elseCatch "other"] by
      simp [unionEncodeChain, unionChainGo, hasCatchAllBranch]]
    decide

/-- **C3 (amended).** The generated union `Encode` identity-checks each
non-catch-all variant via its `Is`-accessor in declared field order; the
catch-all field, when not declared first, is handled by a bare `else`
branch instead of an identity check.  For a union whose catch-all field is
its last declared variant or absent, encoding a variant instance delegates
to the matching variant's own encode (which writes the tag, plus a value
entry when the variant is value-carrying); if no variant matches and no
catch-all field is configured, it raises an invalid-state error. -/
theorem c3_union_encode_dispatch :
    (∀ (vars : List (String × Ty)) (ca : Option String) (n : String) (t : Ty),
        (n, t) ∈ vars → ca ≠ some n →
        UBranch.ifIs n ∈ unionEncodeChain vars ca ∨
        UBranch.elseIfIs n ∈ unionEncodeChain vars ca) ∧
    (∀ (vars : List (String × Ty)) (c : String) (t : Ty) (v0 : String × Ty)
        (rest : List (String × Ty)),
        vars = v0 :: rest → (c, t) ∈ rest →
        UBranch.elseCatch c ∈ unionEncodeChain vars (some c)) ∧
    (∀ (vars : List (String × Ty)) (ca : Option String) (n : String) (t : Ty)
        (p : Option Value),
        (n, t) ∈ vars → nodupB (vars.map (fun v => v.1)) = true →
        caLastOk ca vars = true →
        encodeValue (.unionT vars ca) (.vunion n p) = encodeVariant n t p) ∧
    (∀ (vars : List (String × Ty)) (m : String) (p : Option Value),
        (∀ n t, (n, t) ∈ vars → m ≠ n) →
        encodeValue (.unionT vars none) (.vunion m p) = .error .invalidOp) := by
  refine ⟨?_, ?_, ?_, ?_⟩
  · intro vars ca n t hmem hne
    rcases unionChain_checks ca n t 0 vars hmem hne with h | h
    · exact Or.inl (List.mem_append.mpr (Or.inl h))
    · exact Or.inr (List.mem_append.mpr (Or.inl h))
  · intro vars c t v0 rest hv hmem
    subst hv
    have h := unionChain_catchall c t 1 rest hmem (by omega)
    unfold unionEncodeChain
    apply List.mem_append.mpr
    left
    unfold unionChainGo
    exact List.mem_cons_of_mem _ h
  · intro vars ca n t p hmem hnodup hca
    rw [show encodeValue (.unionT vars ca) (.vunion n p)
        = encodeUnionGo ca true vars (.vunion n p) by simp [encodeValue]]
    exact encodeUnionGo_matches ca vars true n t p hmem hnodup
      (caOnlyLast_of ca vars hca hnodup)
  · intro vars m p hnot
    rw [show encodeValue (.unionT vars none) (.vunion m p)
        = encodeUnionGo none true vars (.vunion m p) by simp [encodeValue]]
    exact encodeUnionGo_nomatch vars true m p hnot

/-- Witness for C3 (amended): the two-variant union with catch-all `other`
declared last, and a closed one-variant union decoding no match. -/
theorem c3_union_encode_dispatch_witness :
    encodeValue (.unionT [("first", Ty.voidT), ("other", Ty.voidT)] (some "other"))
        (.vunion "other" none) = encodeVariant "other" Ty.voidT none ∧
    UBranch.elseCatch "other"
        ∈ unionEncodeChain [("first", Ty.voidT), ("other", Ty.voidT)] (some "other") ∧
    encodeValue (.unionT [("red", Ty.voidT)] none) (.vunion "green" none)
        = .error .invalidOp := by
  refine ⟨?_, ?_, ?_⟩
  · exact c3_union_encode_dispatch.2.2.1 _ (some "other") "other" Ty.voidT none
      (List.mem_cons_of_mem _ (List.mem_cons_self _ _)) (by decide) (by decide)
  · exact c3_union_encode_dispatch.2.1 _ "other" Ty.voidT ("first", Ty.voidT)
      [("other", Ty.voidT)] rfl (List.mem_cons_self _ _)
  · refine c3_union_encode_dispatch.2.2.2 _ "green" none ?_
    intro n t h hmn
    subst hmn
    rcases List.mem_singleton.mp h with hp
    have hgr : "green" = "red" := congrArg Prod.fst hp
    exact absurd hgr (by decide)

/-! ## C5 and C6: list fields on the wire -/

theorem shouldEmit_of_not_null (t : Ty) (v : Value) (h : ∀ dt, t ≠ Ty.nullT dt) :
    shouldEmit t v = true := by
  cases t <;> first | rfl | exact absurd rfl (h _)

/-- A field omitted by the emitted encoder is exactly a nullable field whose
value is absent (empty nullable list / null). -/
theorem encodeFieldEntry_none (n : String) (t : Ty) (v : Value)
    (h : encodeFieldEntry n t v = .ok none) : shouldEmit t v = false := by
  unfold encodeFieldEntry at h
  split at h
  · rename_i dt
    by_cases hl : isListT dt = true
    · rw [if_pos hl] at h
      split at h
      · simp [shouldEmit, hl]
      · split at h <;> simp_all
      · simp at h
    · rw [if_neg hl] at h
      have hl' : isListT dt = false := by simpa using hl
      split at h
      · simp [shouldEmit, hl']
      · split at h <;> simp_all
  · split at h <;> simp_all

/-- An emitted entry carries the field's wire name, and the field counts as
present per `shouldEmit`. -/
theorem encodeFieldEntry_some (n : String) (t : Ty) (v : Value) (ent : String × Wire)
    (h : encodeFieldEntry n t v = .ok (some ent)) :
    ent.1 = n ∧ shouldEmit t v = true := by
  unfold encodeFieldEntry at h
  split at h
  · rename_i dt
    by_cases hl : isListT dt = true
    · rw [if_pos hl] at h
      split at h
      · simp at h
      · split at h
        · injection h with h1
          injection h1 with h2
          subst h2
          exact ⟨rfl, by simp [shouldEmit, hl]⟩
        · simp at h
      · simp at h
    · rw [if_neg hl] at h
      have hl' : isListT dt = false := by simpa using hl
      split at h
      · simp at h
      · rename_i hvn
        split at h
        · injection h with h1
          injection h1 with h2
          subst h2
          refine ⟨rfl, ?_⟩
          cases v with
          | vnull => exact (hvn rfl).elim
          | vbool b => simp [shouldEmit, hl']
          | vint m => simp [shouldEmit, hl']
          | vstr s => simp [shouldEmit, hl']
          | vlist es => simp [shouldEmit, hl']
          | vstruct fv => simp [shouldEmit, hl']
          | vunion tg pl => simp [shouldEmit, hl']
        · simp at h
  · rename_i hnn
    split at h
    · injection h with h1
      injection h1 with h2
      subst h2
      exact ⟨rfl, shouldEmit_of_not_null _ _ (fun dt he => hnn dt he)⟩
    · simp at h

/-- **C6, counterexample.** A plain (non-nullable) list-typed field with
zero elements is NOT omitted: the emitted encoder has no `Count > 0` guard
for non-nullable list fields, so the empty list is written to the wire. -/
theorem c6_counterexample :
    encodeValue (Ty.structT [("tags", Ty.listT (Ty.strT none none none) none none, none)])
        (.vstruct [.vlist []])
        = .ok (.wobj [("tags", .wlist [])]) ∧
    Wire.wobj [("tags", Wire.wlist [])] ≠ .wobj [] := by
  constructor
  · simp [encodeValue, encodeFields, encodeFieldEntry, encodeList]
  · intro hw
    have : ([("tags", Wire.wlist [])] : List (String × Wire)) = [] := by
      injection hw
    exact List.noConfusion this

/-- **C6 (amended).** The generated struct `Encode` emits fields in
declaration order and omits exactly the absent nullable fields: a nullable
list-typed field with zero elements and a nullable field that is null.
Non-nullable list fields are emitted even when empty.  Stated as: the wire
entry names of a successful encode are the names of the fields kept by
`shouldEmit`, in declaration order. -/
theorem c6_encode_entry_names :
    ∀ (fs : List FieldT) (vs : List Value) (es : List (String × Wire)),
    encodeFields fs vs = .ok es →
    es.map (fun e => e.1)
      = ((fs.zip vs).filter (fun fv => shouldEmit fv.1.2.1 fv.2)).map (fun fv => fv.1.1) := by
  intro fs
  induction fs with
  | nil =>
    intro vs es h
    cases vs with
    | nil =>
      have : es = [] := by
        have h2 : (Except.ok ([] : List (String × Wire)) : Except EErr (List (String × Wire)))
            = Except.ok es := by
          rw [← h]; simp [encodeFields]
        injection h2 with h3
        exact h3.symm
      subst this
      simp
    | cons v vs' => simp [encodeFields] at h
  | cons f rest ih =>
    intro vs es h
    obtain ⟨n, t, d⟩ := f
    cases vs with
    | nil => simp [encodeFields] at h
    | cons v vs' =>
      unfold encodeFields at h
      split at h
      · simp at h
      · rename_i heq
        rw [List.zip_cons_cons, List.filter_cons]
        rw [encodeFieldEntry_none n t v heq]
        simpa using ih vs' es h
      · rename_i ent heq
        obtain ⟨hname, hemit⟩ := encodeFieldEntry_some n t v ent heq
        split at h
        · simp at h
        · rename_i es' heq2
          injection h with h2
          subst h2
          rw [List.zip_cons_cons, List.filter_cons]
          simp only [hemit, if_pos]
          simp only [List.map_cons, hname]
          rw [ih vs' es' heq2]

/-- Witness for C6 (amended): a struct with a plain empty list field (kept)
and a nullable string field that is null (omitted). -/
theorem c6_encode_entry_names_witness :
    encodeFields
        [("tags", Ty.listT (Ty.strT none none none) none none, none),
         ("note", Ty.nullT (Ty.strT none none none), none)]
        [.vlist [], .vnull]
      = .ok [("tags", .wlist [])] ∧
    ([("tags", Wire.wlist [])].map (fun e => e.1)) = ["tags"] := by
  constructor
  · simp [encodeFields, encodeFieldEntry, encodeValue, encodeList, isListT]
  · exact c6_encode_entry_names
      [("tags", Ty.listT (Ty.strT none none none) none none, none),
       ("note", Ty.nullT (Ty.strT none none none), none)]
      [.vlist [], .vnull] [("tags", .wlist [])]
      (by simp [encodeFields, encodeFieldEntry, encodeValue, encodeList, isListT])

/-- **C5.** For every struct field of list type, the generated `Decode`
materializes absence from the wire as an empty, non-null sequence, in every
guard configuration of `_emit_decoder`: a plain or defaulted list field
(the guarded one via the emitted `else` branch assigning
`new col.List<T>()`, the unguarded one via the list accessor, which per the
spec yields the empty sequence on an absent entry) and a nullable list
field (guarded, same `else` branch). -/
theorem c5_absent_list (n : String) (t : Ty) (mn mx : Option Nat) (d : Option Dflt)
    (es : List (String × Wire)) (habs : lookupW n es = none) :
    decodeField (n, Ty.listT t mn mx, d) es = .ok (.vlist []) ∧
    decodeField (n, Ty.nullT (Ty.listT t mn mx), d) es = .ok (.vlist []) := by
  constructor
  · cases d with
    | none => simp [decodeField, habs, isListT]
    | some dv => simp [decodeField, habs, isListT]
  · simp [decodeField, habs, isListT]

/-- Witness for C5: both the plain and the nullable `tags` list field
decode to the empty sequence on an empty wire object. -/
theorem c5_absent_list_witness :
    decodeField ("tags", Ty.listT (Ty.strT none none none) none none, none) []
        = .ok (.vlist []) ∧
    decodeField ("tags", Ty.nullT (Ty.listT (Ty.strT none none none) none none), none) []
        = .ok (.vlist []) :=
  c5_absent_list "tags" (Ty.strT none none none) none none none [] rfl

/-! ## C2: decode dispatch on the discriminant tag -/

/-- A walk over variants none of which is the catch-all and none of which
matches the tag leaves the accumulated `default:` case untouched. -/
theorem decodeUnionGo_pass (c : String) (tag : String) (es : List (String × Wire)) :
    ∀ (lst : List (String × Ty)) (cav : Option (String × Ty)),
    (∀ n t, (n, t) ∈ lst → tag ≠ n) →
    (∀ n t, (n, t) ∈ lst → c ≠ n) →
    decodeUnionGo (some c) tag es lst cav
      = (match cav with
         | some (n, t) => decodeVariantBody n t es
         | none => .error .invalidOp) := by
  intro lst
  induction lst with
  | nil =>
    intro cav _ _
    cases cav with
    | none => simp [decodeUnionGo]
    | some p => obtain ⟨n0, t0⟩ := p; simp [decodeUnionGo]
  | cons hd rest ih =>
    intro cav htag hca
    obtain ⟨n', t'⟩ := hd
    unfold decodeUnionGo
    rw [if_neg, if_neg]
    · exact ih cav (fun n t h => htag n t (List.mem_cons_of_mem _ h))
        (fun n t h => hca n t (List.mem_cons_of_mem _ h))
    · intro hc
      exact htag n' t' (List.mem_cons_self _ _) (eq_of_beq hc)
    · intro hc
      exact hca n' t' (List.mem_cons_self _ _) (eq_of_beq (by simpa using hc))

/-- When a tag can only equal the catch-all's name (in particular for a tag
matching no variant at all, or the catch-all's own tag, which has no named
`case`), the switch routes to the catch-all variant's body. -/
theorem decodeUnionGo_ca_route (c : String) (t : Ty) (tag : String)
    (es : List (String × Wire)) :
    ∀ (lst : List (String × Ty)) (cav : Option (String × Ty)),
    (c, t) ∈ lst →
    nodupB (lst.map (fun v => v.1)) = true →
    (∀ m u, (m, u) ∈ lst → tag = m → c = m) →
    decodeUnionGo (some c) tag es lst cav = decodeVariantBody c t es := by
  intro lst
  induction lst with
  | nil => intro cav h; simp at h
  | cons hd rest ih =>
    intro cav hmem hnodup htag
    obtain ⟨n', t'⟩ := hd
    obtain ⟨hni, hnd⟩ := nodupB_cons (by simpa using hnodup)
    unfold decodeUnionGo
    by_cases hc1 : (some c == some n') = true
    · have hcn : c = n' := by
        have := eq_of_beq hc1
        injection this
      subst hcn
      have ht : t = t' := by
        rcases List.mem_cons.mp hmem with he | he
        · exact congrArg Prod.snd he
        · exact absurd (List.mem_map_of_mem (fun v : String × Ty => v.1) he)
            (by simpa using hni)
      subst ht
      rw [if_pos hc1]
      rw [decodeUnionGo_pass c tag es rest (some (c, t))]
      · intro n u hm htagn
        have := htag n u (List.mem_cons_of_mem _ hm) htagn
        subst this
        exact hni (List.mem_map_of_mem (fun v : String × Ty => v.1) hm)
      · intro n u hm hcn
        subst hcn
        exact hni (List.mem_map_of_mem (fun v : String × Ty => v.1) hm)
    · rw [if_neg hc1]
      have hcn : c ≠ n' := fun he => hc1 (by simp [he])
      have hmem' : (c, t) ∈ rest := by
        rcases List.mem_cons.mp hmem with he | he
        · exact absurd (congrArg Prod.fst he) hcn
        · exact he
      rw [if_neg]
      · exact ih cav hmem' hnd (fun m u hm ht => htag m u (List.mem_cons_of_mem _ hm) ht)
      · intro hc2
        exact hcn (htag n' t' (List.mem_cons_self _ _) (eq_of_beq hc2))

/-- The `case "name":` of a non-catch-all variant fires on its tag. -/
theorem decodeUnionGo_case (ca : Option String) (n : String) (t : Ty)
    (es : List (String × Wire)) :
    ∀ (lst : List (String × Ty)) (cav : Option (String × Ty)),
    (n, t) ∈ lst →
    nodupB (lst.map (fun v => v.1)) = true →
    ca ≠ some n →
    decodeUnionGo ca n es lst cav = decodeVariantBody n t es := by
  intro lst
  induction lst with
  | nil => intro cav h; simp at h
  | cons hd rest ih =>
    intro cav hmem hnodup hne
    obtain ⟨n', t'⟩ := hd
    obtain ⟨hni, hnd⟩ := nodupB_cons (by simpa using hnodup)
    unfold decodeUnionGo
    by_cases hc1 : (ca == some n') = true
    · have hca : ca = some n' := eq_of_beq hc1
      have hn' : n ≠ n' := fun he => hne (he ▸ hca)
      have hmem' : (n, t) ∈ rest := by
        rcases List.mem_cons.mp hmem with he | he
        · exact absurd (congrArg Prod.fst he) hn'
        · exact he
      rw [if_pos hc1]
      exact ih (some (n', t')) hmem' hnd hne
    · rw [if_neg hc1]
      by_cases hc2 : (n == n') = true
      · have hn' : n = n' := eq_of_beq hc2
        subst hn'
        have ht : t = t' := by
          rcases List.mem_cons.mp hmem with he | he
          · exact congrArg Prod.snd he
          · exact absurd (List.mem_map_of_mem (fun v : String × Ty => v.1) he)
              (by simpa using hni)
        subst ht
        rw [if_pos hc2]
      · rw [if_neg hc2]
        have hmem' : (n, t) ∈ rest := by
          rcases List.mem_cons.mp hmem with he | he
          · exact absurd (beq_iff_eq.mpr (congrArg Prod.fst he)) hc2
          · exact he
        exact ih cav hmem' hnd hne

/-- With no catch-all field, an unrecognized tag falls to the emitted
`default: throw new sys.InvalidOperationException();`. -/
theorem decodeUnionGo_unknown_closed (tag : String) (es : List (String × Wire)) :
    ∀ (lst : List (String × Ty)),
    (∀ n t, (n, t) ∈ lst → tag ≠ n) →
    decodeUnionGo none tag es lst none = .error .invalidOp := by
  intro lst
  induction lst with
  | nil => intro _; simp [decodeUnionGo]
  | cons hd rest ih =>
    intro htag
    obtain ⟨n', t'⟩ := hd
    unfold decodeUnionGo
    rw [if_neg (by simp), if_neg]
    · exact ih (fun n t h => htag n t (List.mem_cons_of_mem _ h))
    · intro hc
      exact htag n' t' (List.mem_cons_self _ _) (eq_of_beq hc)

/-- A tag matching no recorded subtype name makes `findSub` fail. -/
theorem findSub_none (tag : String) :
    ∀ (subs : List SubDecl), (∀ s ∈ subs, s.tagName ≠ tag) →
    findSub tag subs = none := by
  intro subs
  induction subs with
  | nil => intro _; rfl
  | cons s rest ih =>
    intro h
    unfold findSub
    rw [if_neg]
    · rw [ih (fun s' hs => h s' (List.mem_cons_of_mem _ hs))]
      rfl
    · intro hc
      exact h s (List.mem_cons_self _ _) (eq_of_beq hc)

/-- With distinct recorded subtype names, `findSub` recovers a subtype from
its own tag, with its index. -/
theorem findSub_idx :
    ∀ (subs : List SubDecl) (i : Nat) (sub : SubDecl),
    subs.get? i = some sub →
    nodupB (subs.map SubDecl.tagName) = true →
    findSub sub.tagName subs = some (i, sub) := by
  intro subs
  induction subs with
  | nil => intro i sub h; simp at h
  | cons s rest ih =>
    intro i sub hget hnodup
    obtain ⟨hni, hnd⟩ := nodupB_cons (by simpa using hnodup)
    cases i with
    | zero =>
      have hs : s = sub := by simpa using hget
      subst hs
      unfold findSub
      rw [if_pos (by simp)]
    | succ j =>
      have hget' : rest.get? j = some sub := by simpa using hget
      have hmem : sub ∈ rest := List.get?_mem hget'
      have hne : s.tagName ≠ sub.tagName := by
        intro he
        exact hni (he ▸ List.mem_map_of_mem SubDecl.tagName hmem)
      unfold findSub
      rw [if_neg (fun hc => hne (eq_of_beq hc))]
      rw [ih j sub hget' hnd]
      rfl

/-- **C2, counterexample.** The family rooted at `Shape` (no fields) with
subtypes `circle` and `unknown_shape`, where the subtype `unknown_shape` is
designated catch-all but the root is not: the family has a catch-all member,
yet decoding the unrecognized tag `"hexagon"` raises the invalid-state
error, because the emitted `default:` case only consults the root's own
`is_catch_all()`. -/
theorem c2_counterexample :
    decodeFamily ⟨[], [⟨"circle", [], false⟩, ⟨"unknown_shape", [], true⟩], false⟩
        (.wobj [(".tag", .wstr "hexagon")]) = .error .invalidOp ∧
    famHasCatchAll ⟨[], [⟨"circle", [], false⟩, ⟨"unknown_shape", [], true⟩], false⟩
        = true := by
  constructor
  · simp [decodeFamily, lookupW, findSub]
  · rfl

/-- **C2 (amended).** The generated `Decode` of a tagged family reads the
discriminant tag; on a tag matching no declared subtype or variant it raises
the invalid-state error exactly when the *root* struct is not the designated
catch-all (for unions: exactly when no catch-all field is configured); when
the root is the catch-all, the unrecognized tag is decoded into the root's
own fields, and for unions the unrecognized tag is routed to the catch-all
variant's `default:` case.  A catch-all designation on a proper subtype is
never consulted by the emitted dispatch. -/
theorem c2_decode_dispatch :
    (∀ (fam : FamilyS) (es : List (String × Wire)) (tag : String),
        lookupW ".tag" es = some (.wstr tag) →
        (∀ s ∈ fam.subs, s.tagName ≠ tag) →
        (fam.rootCatchAll = false → decodeFamily fam (.wobj es) = .error .invalidOp) ∧
        (fam.rootCatchAll = true →
          decodeFamily fam (.wobj es) = (decodeFieldsGo fam.rootFields es).map FamVal.root)) ∧
    (∀ (vars : List (String × Ty)) (es : List (String × Wire)) (tag : String),
        lookupW ".tag" es = some (.wstr tag) →
        (∀ n t, (n, t) ∈ vars → tag ≠ n) →
        decodeValue (.unionT vars none) (.wobj es) = .error .invalidOp) ∧
    (∀ (vars : List (String × Ty)) (es : List (String × Wire)) (tag c : String) (t : Ty),
        lookupW ".tag" es = some (.wstr tag) →
        (∀ n u, (n, u) ∈ vars → tag ≠ n) →
        (c, t) ∈ vars →
        nodupB (vars.map (fun v => v.1)) = true →
        decodeValue (.unionT vars (some c)) (.wobj es) = decodeVariantBody c t es) := by
  refine ⟨?_, ?_, ?_⟩
  · intro fam es tag hlook hno
    have hfind : findSub tag fam.subs = none := findSub_none tag fam.subs hno
    constructor
    · intro hroot
      simp [decodeFamily, hlook, hfind, hroot]
    · intro hroot
      simp only [decodeFamily, hlook, hfind, hroot, if_pos]
      cases hdec : decodeFieldsGo fam.rootFields es with
      | ok vs => simp [hdec, Except.map]
      | error e => simp [hdec, Except.map]
  · intro vars es tag hlook hno
    rw [show decodeValue (.unionT vars none) (.wobj es)
        = decodeUnionGo none tag es vars none by simp [decodeValue, hlook]]
    exact decodeUnionGo_unknown_closed tag es vars hno
  · intro vars es tag c t hlook hno hmem hnodup
    rw [show decodeValue (.unionT vars (some c)) (.wobj es)
        = decodeUnionGo (some c) tag es vars none by simp [decodeValue, hlook]]
    exact decodeUnionGo_ca_route c t tag es vars none hmem hnodup
      (fun m u hm htg => absurd htg (hno m u hm))

/-- Witness for C2 (amended): a closed family raises on `"hexagon"`, an
open-rooted family decodes the root, a closed union raises on `"purple"`
(the spec's `Color` scenario), and an open union routes `"purple"` to its
catch-all variant. -/
theorem c2_decode_dispatch_witness :
    decodeFamily ⟨[], [⟨"circle", [], false⟩], false⟩
        (.wobj [(".tag", .wstr "hexagon")]) = .error .invalidOp ∧
    decodeFamily ⟨[], [⟨"circle", [], false⟩], true⟩
        (.wobj [(".tag", .wstr "hexagon")])
      = (decodeFieldsGo [] [(".tag", Wire.wstr "hexagon")]).map FamVal.root ∧
    decodeValue
        (.unionT [("red", Ty.voidT), ("green", Ty.voidT), ("blue", Ty.voidT)] none)
        (.wobj [(".tag", .wstr "purple")]) = .error .invalidOp ∧
    decodeValue
        (.unionT [("red", Ty.voidT), ("other", Ty.voidT)] (some "other"))
        (.wobj [(".tag", .wstr "purple")]) = decodeVariantBody "other" Ty.voidT
          [(".tag", Wire.wstr "purple")] := by
  refine ⟨?_, ?_, ?_, ?_⟩
  · exact ((c2_decode_dispatch.1 ⟨[], [⟨"circle", [], false⟩], false⟩
      [(".tag", .wstr "hexagon")] "hexagon" rfl
      (by intro s hs; rcases List.mem_singleton.mp hs with rfl; decide)).1) rfl
  · exact ((c2_decode_dispatch.1 ⟨[], [⟨"circle", [], false⟩], true⟩
      [(".tag", .wstr "hexagon")] "hexagon" rfl
      (by intro s hs; rcases List.mem_singleton.mp hs with rfl; decide)).2) rfl
  · refine c2_decode_dispatch.2.1 _ _ "purple" rfl ?_
    intro n t h hp
    subst hp
    simp [Prod.ext_iff] at h
  · refine c2_decode_dispatch.2.2 _ _ "purple" "other" Ty.voidT rfl ?_
      (List.mem_cons_of_mem _ (List.mem_cons_self _ _)) (by decide)
    intro n u h hp
    subst hp
    simp [Prod.ext_iff] at h

/-! ## C1: round-trip of the generated encode/decode -/

theorem valueSizePos (v : Value) : 0 < sizeOf v := by
  cases v <;> simp

theorem lookupW_append_of_not_mem (n : String) (pre es : List (String × Wire))
    (h : ∀ p ∈ pre, p.1 ≠ n) :
    lookupW n (pre ++ es) = lookupW n es := by
  induction pre with
  | nil => rfl
  | cons p rest ih =>
    obtain ⟨k, w⟩ := p
    have hk : k ≠ n := h (k, w) (List.mem_cons_self _ _)
    rw [List.cons_append]
    show (if (k == n) = true then some w else lookupW n (rest ++ es)) = lookupW n es
    rw [if_neg (fun hc => hk (eq_of_beq hc))]
    exact ih (fun q hq => h q (List.mem_cons_of_mem _ hq))

theorem lookupW_none_of (n : String) (es : List (String × Wire))
    (h : ∀ e ∈ es, e.1 ≠ n) : lookupW n es = none := by
  induction es with
  | nil => rfl
  | cons e rest ih =>
    obtain ⟨k, w⟩ := e
    show (if (k == n) = true then some w else lookupW n rest) = none
    rw [if_neg (fun hc => h (k, w) (List.mem_cons_self _ _) (eq_of_beq hc))]
    exact ih (fun q hq => h q (List.mem_cons_of_mem _ hq))

/-- Every wire entry produced by the struct field encoder carries the name
of one of the struct's fields. -/
theorem encodeFields_names :
    ∀ (fs : List FieldT) (vs : List Value) (es : List (String × Wire)),
    encodeFields fs vs = .ok es → ∀ e ∈ es, ∃ f ∈ fs, e.1 = f.1 := by
  intro fs
  induction fs with
  | nil =>
    intro vs es h e he
    cases vs with
    | nil =>
      have h2 : (Except.ok ([] : List (String × Wire)) : Except EErr (List (String × Wire)))
          = Except.ok es := by rw [← h]; simp [encodeFields]
      injection h2 with h3
      rw [← h3] at he
      simp at he
    | cons v vs' => simp [encodeFields] at h
  | cons f rest ih =>
    intro vs es h e he
    obtain ⟨n, t, d⟩ := f
    cases vs with
    | nil => simp [encodeFields] at h
    | cons v vs' =>
      unfold encodeFields at h
      split at h
      · simp at h
      · rcases ih vs' es h e he with ⟨f', hf', he'⟩
        exact ⟨f', List.mem_cons_of_mem _ hf', he'⟩
      · rename_i ent heq
        split at h
        · simp at h
        · rename_i es' heq2
          injection h with h2
          subst h2
          rcases List.mem_cons.mp he with hee | hee
          · rw [hee]
            exact ⟨(n, t, d), List.mem_cons_self _ _,
              (encodeFieldEntry_some n t v ent heq).1⟩
          · rcases ih vs' es' heq2 e hee with ⟨f', hf', he'⟩
            exact ⟨f', List.mem_cons_of_mem _ hf', he'⟩

theorem validUnionTag_spec :
    ∀ (vars : List (String × Ty)) (n : String) (p : Option Value),
    validUnionTag vars n p = true → ∃ t, (n, t) ∈ vars ∧ validPayload t p = true := by
  intro vars
  induction vars with
  | nil => intro n p h; simp [validUnionTag] at h
  | cons hd rest ih =>
    intro n p h
    obtain ⟨m, t⟩ := hd
    unfold validUnionTag at h
    by_cases hc : (m == n) = true
    · rw [if_pos hc] at h
      have hm : m = n := eq_of_beq hc
      subst hm
      exact ⟨t, List.mem_cons_self _ _, h⟩
    · rw [if_neg hc] at h
      rcases ih n p h with ⟨t', hmem, hp⟩
      exact ⟨t', List.mem_cons_of_mem _ hmem, hp⟩

theorem wfVariants_cons (m : String) (u : Ty) (rest : List (String × Ty)) :
    wfVariants ((m, u) :: rest)
      = ((match u with
          | Ty.voidT => true
          | Ty.nullT _ => false
          | _ => wfTy u) && wfVariants rest) := rfl

theorem wfVariants_spec :
    ∀ (vars : List (String × Ty)) (n : String) (t : Ty),
    wfVariants vars = true → (n, t) ∈ vars →
    t = Ty.voidT ∨ (isNullableT t = false ∧ wfTy t = true) := by
  intro vars
  induction vars with
  | nil => intro n t _ h; simp at h
  | cons hd rest ih =>
    intro n t hwf hmem
    obtain ⟨m, u⟩ := hd
    rw [wfVariants_cons] at hwf
    rcases Bool.and_eq_true_iff.mp hwf with ⟨hu, hrest⟩
    rcases List.mem_cons.mp hmem with he | he
    · have ht : t = u := congrArg Prod.snd he
      subst ht
      cases t with
      | voidT => exact Or.inl rfl
      | nullT inner => exact Bool.noConfusion hu
      | boolT => exact Or.inr ⟨rfl, hu⟩
      | intT lo hi => exact Or.inr ⟨rfl, hu⟩
      | strT a b c => exact Or.inr ⟨rfl, hu⟩
      | listT e a b => exact Or.inr ⟨rfl, hu⟩
      | structT fs2 => exact Or.inr ⟨rfl, hu⟩
      | unionT vs2 ca2 => exact Or.inr ⟨rfl, hu⟩
    · exact ih n t hrest he

theorem dfltOkFor_not_null (dv : Dflt) (dt : Ty) : dfltOkFor dv (Ty.nullT dt) = false := by
  cases dv <;> rfl

theorem contains_false_forall (names : List String) (x : String)
    (h : names.contains x = false) : ∀ n ∈ names, n ≠ x := by
  intro n hn he
  subst he
  exact (not_mem_of_contains_false names n h) hn

theorem wfTy_null (t : Ty) :
    wfTy (Ty.nullT t)
      = ((match t with
          | Ty.nullT _ => false
          | Ty.voidT => false
          | _ => true) && wfTy t) := rfl

theorem wfFields_cons (n : String) (t : Ty) (d : Option Dflt) (rest : List FieldT) :
    wfFields ((n, t, d) :: rest)
      = (wfTy t &&
         (match t with | Ty.voidT => false | _ => true) &&
         (match d with | none => true | some dv => dfltOkFor dv t) &&
         wfFields rest) := rfl

theorem validTy_null (t : Ty) (v : Value) :
    validTy (Ty.nullT t) v
      = (if isListT t then validTy t v
         else
           match v with
           | Value.vnull => true
           | _ => validTy t v) := by
  cases v <;> simp [validTy]

theorem isNullableT_false_of_wf_null (dt : Ty) (hwf : wfTy (Ty.nullT dt) = true) :
    isNullableT dt = false := by
  rw [wfTy_null] at hwf
  have h1 := (Bool.and_eq_true_iff.mp hwf).1
  cases dt <;> first | rfl | exact Bool.noConfusion h1

/-- One field's encode entry and its decode, under the element induction
hypothesis: an emitted entry decodes back to the value; an omitted entry
makes the decoder reconstruct the value from the absent branch. -/
theorem fieldEntry_round (B : Nat)
    (IH : ∀ (v : Value) (t : Ty), sizeOf v < B → isNullableT t = false →
          wfTy t = true → validTy t v = true →
          ∃ w, encodeValue t v = .ok w ∧ decodeValue t w = .ok v)
    (n : String) (t : Ty) (d : Option Dflt) (v : Value)
    (hsz : sizeOf v < B)
    (hwf : wfTy t = true)
    (hdok : ∀ dv, d = some dv → dfltOkFor dv t = true)
    (hval : validTy t v = true) :
    (∃ w, encodeFieldEntry n t v = .ok (some (n, w)) ∧
      ∀ es, lookupW n es = some w → decodeField (n, t, d) es = .ok v) ∨
    (encodeFieldEntry n t v = .ok none ∧
      ∀ es, lookupW n es = none → decodeField (n, t, d) es = .ok v) := by
  cases t with
  | nullT dt =>
    have hwfdt : wfTy dt = true := by
      rw [wfTy_null] at hwf
      exact (Bool.and_eq_true_iff.mp hwf).2
    have hdnone : d = none := by
      cases d with
      | none => rfl
      | some dv =>
        have := hdok dv rfl
        rw [dfltOkFor_not_null] at this
        exact Bool.noConfusion this
    subst hdnone
    have hnndt : isNullableT dt = false := isNullableT_false_of_wf_null dt hwf
    by_cases hl : isListT dt = true
    · obtain ⟨el, mn, mx, rfl⟩ : ∃ el mn mx, dt = Ty.listT el mn mx := by
        cases dt <;> first | exact ⟨_, _, _, rfl⟩ | simp [isListT] at hl
      have hval' : validTy (Ty.listT el mn mx) v = true := by
        rw [validTy_null, if_pos (show isListT (Ty.listT el mn mx) = true from rfl)] at hval
        exact hval
      have hvl : ∃ vs, v = Value.vlist vs := by
        cases v <;> first | exact ⟨_, rfl⟩ | simp [validTy] at hval'
      obtain ⟨vs, rfl⟩ := hvl
      cases vs with
      | nil =>
        right
        constructor
        · simp [encodeFieldEntry.eq_def, isListT]
        · intro es habs
          simp [decodeField.eq_def, habs, isListT]
      | cons v0 vrest =>
        left
        obtain ⟨w, hew, hdw⟩ :=
          IH (.vlist (v0 :: vrest)) (Ty.listT el mn mx) hsz rfl hwfdt hval'
        refine ⟨w, ?_, ?_⟩
        · simp [encodeFieldEntry.eq_def, isListT, hew]
        · intro es hlook
          simp [decodeField.eq_def, hlook, hdw]
    · have hl' : isListT dt = false := by simpa using hl
      cases v with
      | vnull =>
        right
        constructor
        · simp [encodeFieldEntry.eq_def, hl']
        · intro es habs
          simp [decodeField.eq_def, habs, hl', initVal, clrDefault]
      | vbool b =>
        left
        have hval' : validTy dt (Value.vbool b) = true := by
          rw [validTy_null, if_neg (by simp [hl'])] at hval
          exact hval
        obtain ⟨w, hew, hdw⟩ := IH (Value.vbool b) dt hsz hnndt hwfdt hval'
        exact ⟨w, by simp [encodeFieldEntry.eq_def, hl', hew],
          fun es hlook => by simp [decodeField.eq_def, hlook, hdw]⟩
      | vint m =>
        left
        have hval' : validTy dt (Value.vint m) = true := by
          rw [validTy_null, if_neg (by simp [hl'])] at hval
          exact hval
        obtain ⟨w, hew, hdw⟩ := IH (Value.vint m) dt hsz hnndt hwfdt hval'
        exact ⟨w, by simp [encodeFieldEntry.eq_def, hl', hew],
          fun es hlook => by simp [decodeField.eq_def, hlook, hdw]⟩
      | vstr s =>
        left
        have hval' : validTy dt (Value.vstr s) = true := by
          rw [validTy_null, if_neg (by simp [hl'])] at hval
          exact hval
        obtain ⟨w, hew, hdw⟩ := IH (Value.vstr s) dt hsz hnndt hwfdt hval'
        exact ⟨w, by simp [encodeFieldEntry.eq_def, hl', hew],
          fun es hlook => by simp [decodeField.eq_def, hlook, hdw]⟩
      | vlist es0 =>
        left
        have hval' : validTy dt (Value.vlist es0) = true := by
          rw [validTy_null, if_neg (by simp [hl'])] at hval
          exact hval
        obtain ⟨w, hew, hdw⟩ := IH (Value.vlist es0) dt hsz hnndt hwfdt hval'
        exact ⟨w, by simp [encodeFieldEntry.eq_def, hl', hew],
          fun es hlook => by simp [decodeField.eq_def, hlook, hdw]⟩
      | vstruct fv =>
        left
        have hval' : validTy dt (Value.vstruct fv) = true := by
          rw [validTy_null, if_neg (by simp [hl'])] at hval
          exact hval
        obtain ⟨w, hew, hdw⟩ := IH (Value.vstruct fv) dt hsz hnndt hwfdt hval'
        exact ⟨w, by simp [encodeFieldEntry.eq_def, hl', hew],
          fun es hlook => by simp [decodeField.eq_def, hlook, hdw]⟩
      | vunion tg pl =>
        left
        have hval' : validTy dt (Value.vunion tg pl) = true := by
          rw [validTy_null, if_neg (by simp [hl'])] at hval
          exact hval
        obtain ⟨w, hew, hdw⟩ := IH (Value.vunion tg pl) dt hsz hnndt hwfdt hval'
        exact ⟨w, by simp [encodeFieldEntry.eq_def, hl', hew],
          fun es hlook => by simp [decodeField.eq_def, hlook, hdw]⟩
  | voidT => simp [validTy] at hval
  | boolT =>
    left
    obtain ⟨w, hew, hdw⟩ := IH v Ty.boolT hsz rfl hwf hval
    refine ⟨w, by simp [encodeFieldEntry.eq_def, hew], fun es hlook => ?_⟩
    cases d with
    | none => simp [decodeField.eq_def, hlook, hdw]
    | some dv => simp [decodeField.eq_def, hlook, hdw]
  | intT lo hi =>
    left
    obtain ⟨w, hew, hdw⟩ := IH v (Ty.intT lo hi) hsz rfl hwf hval
    refine ⟨w, by simp [encodeFieldEntry.eq_def, hew], fun es hlook => ?_⟩
    cases d with
    | none => simp [decodeField.eq_def, hlook, hdw]
    | some dv => simp [decodeField.eq_def, hlook, hdw]
  | strT a b c =>
    left
    obtain ⟨w, hew, hdw⟩ := IH v (Ty.strT a b c) hsz rfl hwf hval
    refine ⟨w, by simp [encodeFieldEntry.eq_def, hew], fun es hlook => ?_⟩
    cases d with
    | none => simp [decodeField.eq_def, hlook, hdw]
    | some dv => simp [decodeField.eq_def, hlook, hdw]
  | listT el mn mx =>
    left
    obtain ⟨w, hew, hdw⟩ := IH v (Ty.listT el mn mx) hsz rfl hwf hval
    refine ⟨w, by simp [encodeFieldEntry.eq_def, hew], fun es hlook => ?_⟩
    cases d with
    | none => simp [decodeField.eq_def, hlook, hdw]
    | some dv => simp [decodeField.eq_def, hlook, hdw]
  | structT fs2 =>
    left
    obtain ⟨w, hew, hdw⟩ := IH v (Ty.structT fs2) hsz rfl hwf hval
    refine ⟨w, by simp [encodeFieldEntry.eq_def, hew], fun es hlook => ?_⟩
    cases d with
    | none => simp [decodeField.eq_def, hlook, hdw]
    | some dv => simp [decodeField.eq_def, hlook, hdw]
  | unionT vars ca =>
    left
    obtain ⟨w, hew, hdw⟩ := IH v (Ty.unionT vars ca) hsz rfl hwf hval
    refine ⟨w, by simp [encodeFieldEntry.eq_def, hew], fun es hlook => ?_⟩
    cases d with
    | none => simp [decodeField.eq_def, hlook, hdw]
    | some dv => simp [decodeField.eq_def, hlook, hdw]

/-- Struct-level round trip over the field lists: encoding succeeds and the
per-field decode against the full entry list (with any disjointly-named
prefix, such as the reserved tag entry) reconstructs the field values. -/
theorem encodeFields_round (B : Nat)
    (IH : ∀ (v : Value) (t : Ty), sizeOf v < B → isNullableT t = false →
          wfTy t = true → validTy t v = true →
          ∃ w, encodeValue t v = .ok w ∧ decodeValue t w = .ok v) :
    ∀ (fs : List FieldT) (vs : List Value),
    (∀ v ∈ vs, sizeOf v < B) →
    nodupB (fs.map (fun f => f.1)) = true →
    wfFields fs = true →
    validFields fs vs = true →
    ∃ es, encodeFields fs vs = .ok es ∧
      (∀ pre : List (String × Wire), (∀ p ∈ pre, ∀ f ∈ fs, p.1 ≠ f.1) →
        decodeFieldsGo fs (pre ++ es) = .ok vs) := by
  intro fs
  induction fs with
  | nil =>
    intro vs hsz hnodup hwf hval
    cases vs with
    | nil =>
      refine ⟨[], by simp [encodeFields], ?_⟩
      intro pre _
      simp [decodeFieldsGo]
    | cons v vs' => simp [validFields] at hval
  | cons f rest ih =>
    intro vs hsz hnodup hwf hval
    obtain ⟨n, t, d⟩ := f
    cases vs with
    | nil => simp [validFields] at hval
    | cons v vs' =>
      rw [wfFields_cons] at hwf
      rcases Bool.and_eq_true_iff.mp hwf with ⟨h12, hwfR⟩
      rcases Bool.and_eq_true_iff.mp h12 with ⟨h1, hdm⟩
      rcases Bool.and_eq_true_iff.mp h1 with ⟨hwfT, _hvoid⟩
      have hdok : ∀ dv, d = some dv → dfltOkFor dv t = true := by
        intro dv hd
        subst hd
        exact hdm
      have hvv : (validTy t v && validFields rest vs') = true := by
        simpa [validFields] using hval
      rcases Bool.and_eq_true_iff.mp hvv with ⟨hvalT, hvalR⟩
      obtain ⟨hni, hnd⟩ := nodupB_cons (by simpa using hnodup)
      have hszv : sizeOf v < B := hsz v (List.mem_cons_self _ _)
      have hszR : ∀ u ∈ vs', sizeOf u < B := fun u hu => hsz u (List.mem_cons_of_mem _ hu)
      obtain ⟨es', hesR, hdecR⟩ := ih vs' hszR hnd hwfR hvalR
      rcases fieldEntry_round B IH n t d v hszv hwfT hdok hvalT with
        ⟨w, hent, hdec1⟩ | ⟨hent, hdec1⟩
      · refine ⟨(n, w) :: es', ?_, ?_⟩
        · rw [encodeFields.eq_def]
          simp [hent, hesR]
        · intro pre hpre
          have hlook : lookupW n (pre ++ (n, w) :: es') = some w := by
            rw [lookupW_append_of_not_mem n pre _
              (fun p hp => hpre p hp (n, t, d) (List.mem_cons_self _ _))]
            show (if (n == n) = true then some w else lookupW n es') = some w
            rw [if_pos (by simp)]
          have hheadDec := hdec1 _ hlook
          have htail : decodeFieldsGo rest (pre ++ (n, w) :: es') = .ok vs' := by
            have hstep := hdecR (pre ++ [(n, w)]) ?side
            case side =>
              intro p hp f' hf'
              rcases List.mem_append.mp hp with hp1 | hp2
              · exact hpre p hp1 f' (List.mem_cons_of_mem _ hf')
              · have hp3 : p = (n, w) := List.mem_singleton.mp hp2
                subst hp3
                intro he
                apply hni
                have he2 : n = f'.1 := he
                rw [he2]
                exact List.mem_map_of_mem (fun f : FieldT => f.1) hf'
            rw [List.append_assoc] at hstep
            simpa using hstep
          rw [decodeFieldsGo.eq_def]
          simp [hheadDec, htail]
      · refine ⟨es', ?_, ?_⟩
        · rw [encodeFields.eq_def]
          simp [hent, hesR]
        · intro pre hpre
          have habs : lookupW n (pre ++ es') = none := by
            rw [lookupW_append_of_not_mem n pre _
              (fun p hp => hpre p hp (n, t, d) (List.mem_cons_self _ _))]
            apply lookupW_none_of
            intro e he hen
            rcases encodeFields_names rest vs' es' hesR e he with ⟨f', hf', hef⟩
            apply hni
            rw [show n = f'.1 from (hef.symm.trans hen).symm]
            exact List.mem_map_of_mem (fun f : FieldT => f.1) hf'
          have hheadDec := hdec1 _ habs
          have htail : decodeFieldsGo rest (pre ++ es') = .ok vs' :=
            hdecR pre (fun p hp f' hf' => hpre p hp f' (List.mem_cons_of_mem _ hf'))
          rw [decodeFieldsGo.eq_def]
          simp [hheadDec, htail]

theorem sizeOf_mem_list (vs : List Value) (v : Value) (h : v ∈ vs) : sizeOf v < sizeOf vs := by
  induction vs with
  | nil => simp at h
  | cons a l ih =>
    rcases List.mem_cons.mp h with he | h'
    · subst he
      simp only [List.cons.sizeOf_spec]
      omega
    · have := ih h'
      simp only [List.cons.sizeOf_spec]
      omega

theorem validPayload_void (p : Option Value) (h : validPayload Ty.voidT p = true) :
    p = none := by
  cases p with
  | none => rfl
  | some v => simp [validPayload] at h

theorem validPayload_not_void (t : Ty) (p : Option Value) (ht : isVoidT t = false)
    (h : validPayload t p = true) : ∃ pv, p = some pv ∧ validTy t pv = true := by
  cases p with
  | none => cases t <;> simp [validPayload, isVoidT] at h ht
  | some pv =>
    refine ⟨pv, rfl, ?_⟩
    cases t <;> first
      | (simp [validPayload] at h; exact h)
      | (simp [validPayload] at h)

theorem encodeVariant_void (n : String) (p : Option Value) :
    encodeVariant n Ty.voidT p = .ok (.wobj [(".tag", .wstr n)]) := by
  rw [encodeVariant.eq_def]
  cases p <;> rfl

theorem encodeVariant_some (n : String) (t : Ty) (pv : Value) (w : Wire)
    (ht : isVoidT t = false) (he : encodeValue t pv = .ok w) :
    encodeVariant n t (some pv) = .ok (.wobj [(".tag", .wstr n), (n, w)]) := by
  cases t
  case voidT => exact Bool.noConfusion ht
  all_goals (rw [encodeVariant.eq_def]; simp [he])

theorem decodeVariantBody_void (n : String) (es : List (String × Wire)) :
    decodeVariantBody n Ty.voidT es = .ok (.vunion n none) := by
  rw [decodeVariantBody.eq_def]
  simp [isVoidT]

theorem decodeVariantBody_not_void (n : String) (t : Ty) (es : List (String × Wire))
    (ht : isVoidT t = false) :
    decodeVariantBody n t es
      = (match lookupW n es with
         | some w =>
           match decodeValue t w with
           | .ok v => .ok (.vunion n (some v))
           | .error e => .error e
         | none => .error .runtime) := by
  rw [decodeVariantBody.eq_def]
  rw [if_neg (by simp [ht])]

theorem wfTy_list (t : Ty) (mn mx : Option Nat) :
    wfTy (Ty.listT t mn mx)
      = ((match t with
          | Ty.nullT _ => false
          | Ty.voidT => false
          | Ty.listT _ _ _ => false
          | _ => true) && wfTy t) := rfl

theorem wfTy_struct (fs : List FieldT) :
    wfTy (Ty.structT fs)
      = (nodupB (fs.map (fun f => f.1)) &&
         !((fs.map (fun f => f.1)).contains ".tag") &&
         wfFields fs) := rfl

theorem wfTy_union (vars : List (String × Ty)) (ca : Option String) :
    wfTy (Ty.unionT vars ca)
      = (nodupB (vars.map (fun v => v.1)) &&
         !((vars.map (fun v => v.1)).contains ".tag") &&
         caLastOk ca vars &&
         wfVariants vars) := rfl

theorem isNullableT_false_of_wf_list (t : Ty) (mn mx : Option Nat)
    (hwf : wfTy (Ty.listT t mn mx) = true) : isNullableT t = false := by
  rw [wfTy_list] at hwf
  have h1 := (Bool.and_eq_true_iff.mp hwf).1
  cases t <;> first | rfl | exact Bool.noConfusion h1

theorem validTy_list (t : Ty) (mn mx : Option Nat) (vs : List Value) :
    validTy (Ty.listT t mn mx) (Value.vlist vs)
      = ((match mn with | some b => decide (b ≤ vs.length) | none => true) &&
         (match mx with | some b => decide (vs.length ≤ b) | none => true) &&
         validList t vs) := by
  rw [validTy.eq_def]

theorem encodeList_round (B : Nat)
    (IH : ∀ (v : Value) (t : Ty), sizeOf v < B → isNullableT t = false →
          wfTy t = true → validTy t v = true →
          ∃ w, encodeValue t v = .ok w ∧ decodeValue t w = .ok v)
    (t : Ty) (hnn : isNullableT t = false) (hwf : wfTy t = true) :
    ∀ (vs : List Value), (∀ v ∈ vs, sizeOf v < B) → validList t vs = true →
    ∃ ws, encodeList t vs = .ok ws ∧ decodeList t ws = .ok vs := by
  intro vs
  induction vs with
  | nil =>
    intro _ _
    exact ⟨[], by simp [encodeList], by simp [decodeList]⟩
  | cons v vs' ih =>
    intro hsz hval
    have hvv : (validTy t v && validList t vs') = true := by
      simpa [validList] using hval
    rcases Bool.and_eq_true_iff.mp hvv with ⟨hv, hvs⟩
    obtain ⟨w, hew, hdw⟩ := IH v t (hsz v (List.mem_cons_self _ _)) hnn hwf hv
    obtain ⟨ws, hews, hdws⟩ := ih (fun u hu => hsz u (List.mem_cons_of_mem _ hu)) hvs
    refine ⟨w :: ws, ?_, ?_⟩
    · rw [encodeList.eq_def]
      simp [hew, hews]
    · rw [decodeList.eq_def]
      simp [hdw, hdws]

/-- Main encode/decode round trip, by strong induction on a size bound for
the value: for every non-nullable well-formed schema type and valid value,
the generated `Encode` succeeds and the generated `Decode` inverts it. -/
theorem encDecRound :
    ∀ (B : Nat) (v : Value) (t : Ty), sizeOf v < B →
    isNullableT t = false → wfTy t = true → validTy t v = true →
    ∃ w, encodeValue t v = .ok w ∧ decodeValue t w = .ok v := by
  intro B
  induction B with
  | zero => intro v t hsz; exact absurd hsz (Nat.not_lt_zero _)
  | succ B ih =>
    intro v t hsz hnn hwf hval
    cases t with
    | nullT dt => simp [isNullableT] at hnn
    | voidT => cases v <;> simp [validTy] at hval
    | boolT =>
      cases v
      case vbool b =>
        exact ⟨.wbool b, by simp [encodeValue], by simp [decodeValue]⟩
      all_goals simp [validTy] at hval
    | intT lo hi =>
      cases v
      case vint n =>
        exact ⟨.wint n, by simp [encodeValue], by simp [decodeValue]⟩
      all_goals simp [validTy] at hval
    | strT mn mx pat =>
      cases v
      case vstr s =>
        exact ⟨.wstr s, by simp [encodeValue], by simp [decodeValue]⟩
      all_goals simp [validTy] at hval
    | listT t' mn mx =>
      cases v
      case vlist vs =>
        rw [validTy_list] at hval
        have hvl : validList t' vs = true := (Bool.and_eq_true_iff.mp hval).2
        have hwft' : wfTy t' = true := by
          rw [wfTy_list] at hwf
          exact (Bool.and_eq_true_iff.mp hwf).2
        have hnn' : isNullableT t' = false := isNullableT_false_of_wf_list t' mn mx hwf
        have hszvs : ∀ u ∈ vs, sizeOf u < B := by
          intro u hu
          have h1 := sizeOf_mem_list vs u hu
          have h2 : sizeOf (Value.vlist vs) = 1 + sizeOf vs := by simp
          omega
        obtain ⟨ws, hews, hdws⟩ := encodeList_round B ih t' hnn' hwft' vs hszvs hvl
        refine ⟨.wlist ws, ?_, ?_⟩
        · rw [encodeValue.eq_def]
          simp [hews]
        · rw [decodeValue.eq_def]
          simp [hdws]
      all_goals simp [validTy] at hval
    | structT fs =>
      cases v
      case vstruct vs =>
        have hval' : validFields fs vs = true := by simpa [validTy] using hval
        rw [wfTy_struct] at hwf
        rcases Bool.and_eq_true_iff.mp hwf with ⟨h12, hwfF⟩
        rcases Bool.and_eq_true_iff.mp h12 with ⟨hnodup, _htag⟩
        have hszvs : ∀ u ∈ vs, sizeOf u < B := by
          intro u hu
          have h1 := sizeOf_mem_list vs u hu
          have h2 : sizeOf (Value.vstruct vs) = 1 + sizeOf vs := by simp
          omega
        obtain ⟨es, hes, hdec⟩ := encodeFields_round B ih fs vs hszvs hnodup hwfF hval'
        refine ⟨.wobj es, ?_, ?_⟩
        · rw [encodeValue.eq_def]
          simp [hes]
        · rw [decodeValue.eq_def]
          have hd := hdec [] (fun p hp => absurd hp (List.not_mem_nil p))
          rw [List.nil_append] at hd
          simp [hd]
      all_goals simp [validTy] at hval
    | unionT vars ca =>
      cases v
      case vunion m p =>
        have hvt : validUnionTag vars m p = true := by simpa [validTy] using hval
        obtain ⟨t, hmem, hpay⟩ := validUnionTag_spec vars m p hvt
        rw [wfTy_union] at hwf
        rcases Bool.and_eq_true_iff.mp hwf with ⟨h123, hwfV⟩
        rcases Bool.and_eq_true_iff.mp h123 with ⟨h12, hcaLast⟩
        rcases Bool.and_eq_true_iff.mp h12 with ⟨hnodup, htagc⟩
        have hlast := caOnlyLast_of ca vars hcaLast hnodup
        have henc : encodeValue (Ty.unionT vars ca) (Value.vunion m p)
            = encodeVariant m t p := by
          have h0 : encodeValue (Ty.unionT vars ca) (Value.vunion m p)
              = encodeUnionGo ca true vars (Value.vunion m p) := by
            simp [encodeValue]
          rw [h0]
          exact encodeUnionGo_matches ca vars true m t p hmem hnodup hlast
        have hcfalse : (vars.map (fun v => v.1)).contains ".tag" = false := by
          simpa using htagc
        have hmtag : m ≠ ".tag" :=
          contains_false_forall _ ".tag" hcfalse m
            (List.mem_map_of_mem (fun v : String × Ty => v.1) hmem)
        have hroute : ∀ es, decodeUnionGo ca m es vars none = decodeVariantBody m t es := by
          intro es
          by_cases hcam : ca = some m
          · subst hcam
            exact decodeUnionGo_ca_route m t m es vars none hmem hnodup
              (fun m' u _ h => h)
          · exact decodeUnionGo_case ca m t es vars none hmem hnodup hcam
        by_cases htv : isVoidT t = true
        · have ht : t = Ty.voidT := by
            cases t <;> first | rfl | (simp [isVoidT] at htv)
          subst ht
          have hp : p = none := validPayload_void p hpay
          subst hp
          refine ⟨.wobj [(".tag", .wstr m)], ?_, ?_⟩
          · rw [henc]
            exact encodeVariant_void m none
          · have h1 : decodeValue (Ty.unionT vars ca) (Wire.wobj [(".tag", Wire.wstr m)])
                = decodeUnionGo ca m [(".tag", Wire.wstr m)] vars none := by
              rw [decodeValue.eq_def]
              simp [lookupW]
            rw [h1, hroute]
            exact decodeVariantBody_void m _
        · have htvF : isVoidT t = false := by simpa using htv
          rcases wfVariants_spec vars m t hwfV hmem with hvoid | ⟨hnnT, hwfT⟩
          · rw [hvoid] at htvF
            simp [isVoidT] at htvF
          · obtain ⟨pv, hpv, hvalpv⟩ := validPayload_not_void t p htvF hpay
            subst hpv
            have hszpv : sizeOf pv < B := by
              have h2 : sizeOf (Value.vunion m (some pv))
                  = 1 + sizeOf m + (1 + sizeOf pv) := by simp
              omega
            obtain ⟨w, hew, hdw⟩ := ih pv t hszpv hnnT hwfT hvalpv
            refine ⟨.wobj [(".tag", .wstr m), (m, w)], ?_, ?_⟩
            · rw [henc]
              exact encodeVariant_some m t pv w htvF hew
            · have h1 : decodeValue (Ty.unionT vars ca)
                  (Wire.wobj [(".tag", Wire.wstr m), (m, w)])
                  = decodeUnionGo ca m [(".tag", Wire.wstr m), (m, w)] vars none := by
                rw [decodeValue.eq_def]
                simp [lookupW]
              rw [h1, hroute]
              rw [decodeVariantBody_not_void m t _ htvF]
              have hlk : lookupW m [(".tag", Wire.wstr m), (m, w)] = some w := by
                show (if (".tag" == m) = true then some (Wire.wstr m)
                      else lookupW m [(m, w)]) = some w
                rw [if_neg (fun hc => hmtag (eq_of_beq hc).symm)]
                show (if (m == m) = true then some w else lookupW m []) = some w
                rw [if_pos (by simp)]
              rw [hlk]
              simp [hdw]
      all_goals simp [validTy] at hval

/-- Size-bound-free form of the round trip. -/
theorem encDecRoundAll (v : Value) (t : Ty) (h1 : isNullableT t = false)
    (h2 : wfTy t = true) (h3 : validTy t v = true) :
    ∃ w, encodeValue t v = .ok w ∧ decodeValue t w = .ok v :=
  encDecRound (sizeOf v + 1) v t (Nat.lt_succ_self _) h1 h2 h3

/-- Field-list round trip for a well-formed struct declaration. -/
theorem structFields_round (fs : List FieldT) (vs : List Value)
    (hwf : wfTy (Ty.structT fs) = true) (hval : validFields fs vs = true) :
    ∃ es, encodeFields fs vs = .ok es ∧
      (∀ pre : List (String × Wire), (∀ p ∈ pre, ∀ f ∈ fs, p.1 ≠ f.1) →
        decodeFieldsGo fs (pre ++ es) = .ok vs) := by
  rw [wfTy_struct] at hwf
  rcases Bool.and_eq_true_iff.mp hwf with ⟨h12, hwfF⟩
  rcases Bool.and_eq_true_iff.mp h12 with ⟨hnodup, _⟩
  exact encodeFields_round (1 + sizeOf vs)
    (fun v t _ => encDecRoundAll v t) fs vs
    (fun u hu => by have := sizeOf_mem_list vs u hu; omega) hnodup hwfF hval

/-- The reserved tag entry clashes with no field of a well-formed struct. -/
theorem tag_pre_disjoint (fs : List FieldT)
    (hwf : wfTy (Ty.structT fs) = true) (w : Wire) :
    ∀ p ∈ [((".tag" : String), w)], ∀ f ∈ fs, p.1 ≠ f.1 := by
  rw [wfTy_struct] at hwf
  rcases Bool.and_eq_true_iff.mp hwf with ⟨h12, _⟩
  rcases Bool.and_eq_true_iff.mp h12 with ⟨_, htagc⟩
  have hc : (fs.map (fun f => f.1)).contains ".tag" = false := by simpa using htagc
  intro p hp f hf
  have hp2 : p = (".tag", w) := List.mem_singleton.mp hp
  subst hp2
  intro he
  exact (contains_false_forall _ ".tag" hc f.1
    (List.mem_map_of_mem (fun f : FieldT => f.1) hf)) he.symm

/-- Tagged-family round trip: `Encode` writes the `.tag` entry followed by
the member's fields, `Decode` dispatches on the tag back to the same member
and reconstructs its field values. -/
theorem famRound (fam : FamilyS) (fv : FamVal) (hwf : wfFam fam = true)
    (hval : validFam fam fv = true) :
    ∃ w, encodeFamily fam fv = .ok w ∧ decodeFamily fam w = .ok fv := by
  unfold wfFam at hwf
  rcases Bool.and_eq_true_iff.mp hwf with ⟨h12, hall⟩
  rcases Bool.and_eq_true_iff.mp h12 with ⟨hwfRoot, hnodupTags⟩
  cases fv with
  | root vs =>
    have hv2 : (fam.rootCatchAll && validFields fam.rootFields vs) = true := by
      simpa [validFam] using hval
    rcases Bool.and_eq_true_iff.mp hv2 with ⟨hca, hvalF⟩
    obtain ⟨es, hes, hdec⟩ := structFields_round fam.rootFields vs hwfRoot hvalF
    have hfind : findSub "" fam.subs = none := by
      apply findSub_none
      intro s hs
      have h1 := List.all_eq_true.mp hall s hs
      rcases Bool.and_eq_true_iff.mp h1 with ⟨h2, _⟩
      rcases Bool.and_eq_true_iff.mp h2 with ⟨_, hne⟩
      intro he
      simp [he] at hne
    have hd := hdec [(".tag", Wire.wstr "")] (tag_pre_disjoint fam.rootFields hwfRoot _)
    rw [List.singleton_append] at hd
    refine ⟨.wobj ((".tag", .wstr "") :: es), ?_, ?_⟩
    · simp [encodeFamily, hca, encodeTagged, hes]
    · simp [decodeFamily, lookupW, hfind, hca, hd]
  | sub i vs =>
    cases hget : fam.subs.get? i with
    | none =>
      have hget2 : fam.subs[i]? = none := by
        rw [← List.get?_eq_getElem?]
        exact hget
      simp [validFam, hget2] at hval
    | some sub =>
      have hget2 : fam.subs[i]? = some sub := by
        rw [← List.get?_eq_getElem?]
        exact hget
      have hvalF : validFields sub.allFields vs = true := by
        simpa [validFam, hget2] using hval
      have hmem : sub ∈ fam.subs := List.get?_mem hget
      have h1 := List.all_eq_true.mp hall sub hmem
      rcases Bool.and_eq_true_iff.mp h1 with ⟨h2, _htagne⟩
      rcases Bool.and_eq_true_iff.mp h2 with ⟨hwfSub, _hne⟩
      obtain ⟨es, hes, hdec⟩ := structFields_round sub.allFields vs hwfSub hvalF
      have hfind := findSub_idx fam.subs i sub hget hnodupTags
      have hd := hdec [(".tag", Wire.wstr sub.tagName)] (tag_pre_disjoint sub.allFields hwfSub _)
      rw [List.singleton_append] at hd
      refine ⟨.wobj ((".tag", .wstr sub.tagName) :: es), ?_, ?_⟩
      · simp [encodeFamily, hget2, encodeTagged, hes]
      · simp [decodeFamily, lookupW, hfind, hd]

/-- **C1.** For every struct instance, union instance, or member of a
tagged struct family, built with valid field values over a well-formed
schema declaration, the generated `Decode` applied to the output of the
generated `Encode` returns a value whose fields are equal, field for field
(list fields compared elementwise as `List`s), to the original's. -/
theorem c1_round_trip :
    (∀ (fs : List FieldT) (vs : List Value),
       wfTy (Ty.structT fs) = true →
       validTy (Ty.structT fs) (Value.vstruct vs) = true →
       ∃ w, encodeValue (Ty.structT fs) (Value.vstruct vs) = .ok w ∧
            decodeValue (Ty.structT fs) w = .ok (Value.vstruct vs)) ∧
    (∀ (vars : List (String × Ty)) (ca : Option String) (n : String) (p : Option Value),
       wfTy (Ty.unionT vars ca) = true →
       validTy (Ty.unionT vars ca) (Value.vunion n p) = true →
       ∃ w, encodeValue (Ty.unionT vars ca) (Value.vunion n p) = .ok w ∧
            decodeValue (Ty.unionT vars ca) w = .ok (Value.vunion n p)) ∧
    (∀ (fam : FamilyS) (fv : FamVal),
       wfFam fam = true → validFam fam fv = true →
       ∃ w, encodeFamily fam fv = .ok w ∧ decodeFamily fam w = .ok fv) := by
  refine ⟨?_, ?_, ?_⟩
  · intro fs vs hwf hval
    exact encDecRoundAll _ _ rfl hwf hval
  · intro vars ca n p hwf hval
    exact encDecRoundAll _ _ rfl hwf hval
  · exact famRound

theorem c1_round_trip_witness :
    (∃ w, encodeValue (Ty.structT [("b", Ty.boolT, none), ("s", Ty.strT none none none, none)])
            (Value.vstruct [Value.vbool true, Value.vstr "x"]) = .ok w ∧
          decodeValue (Ty.structT [("b", Ty.boolT, none), ("s", Ty.strT none none none, none)]) w
            = .ok (Value.vstruct [Value.vbool true, Value.vstr "x"])) ∧
    (∃ w, encodeValue (Ty.unionT [("red", Ty.voidT), ("num", Ty.intT none none)] none)
            (Value.vunion "num" (some (Value.vint 7))) = .ok w ∧
          decodeValue (Ty.unionT [("red", Ty.voidT), ("num", Ty.intT none none)] none) w
            = .ok (Value.vunion "num" (some (Value.vint 7)))) ∧
    (∃ w, encodeFamily ⟨[("r", Ty.boolT, none)],
            [⟨"circle", [("x", Ty.intT none none, none)], false⟩], true⟩
            (FamVal.sub 0 [Value.vint 3]) = .ok w ∧
          decodeFamily ⟨[("r", Ty.boolT, none)],
            [⟨"circle", [("x", Ty.intT none none, none)], false⟩], true⟩ w
            = .ok (FamVal.sub 0 [Value.vint 3])) := by
  refine ⟨?_, ?_, ?_⟩
  · exact c1_round_trip.1 [("b", Ty.boolT, none), ("s", Ty.strT none none none, none)]
      [Value.vbool true, Value.vstr "x"] (by decide)
      (by simp [validTy, validFields])
  · exact c1_round_trip.2.1 [("red", Ty.voidT), ("num", Ty.intT none none)] none
      "num" (some (Value.vint 7)) (by decide)
      (by simp [validTy, validUnionTag, validPayload])
  · exact c1_round_trip.2.2 ⟨[("r", Ty.boolT, none)],
      [⟨"circle", [("x", Ty.intT none none, none)], false⟩], true⟩
      (FamVal.sub 0 [Value.vint 3]) (by decide)
      (by simp [validFam, validFields, validTy])
